import Mathlib

/-!
Verification of a 9×9 sudoku solver (a Rust crate with a `SudokuBoard` data
model and a propagation-plus-backtracking solver) against its design
specification.  The Rust code is shallowly embedded: the mutable board is
threaded explicitly, `Result<(), SudokuError>` becomes `SudokuResult`, and a
Rust runtime abort (an out-of-bounds unwrap or an arithmetic underflow on
`usize`) is modelled by the distinguished outcome `RunErr.panic`.  The
recursive solver is embedded with an explicit fuel parameter; `RunErr.fuelOut`
marks fuel exhaustion, and a theorem below shows fuel `82` is never exhausted
on well-formed boards, so `solve` (fuel 82) is a faithful model of the
recursion.
-/

namespace Sudoku

/-- The error enumeration of the crate (`SudokuError` in the source). -/
inductive SudokuError where
  | InvalidRange
  | NotSolvable
  | TooManyOptions
  | AlreadyKnown
  | NoFullySolved
  | Unknown
deriving DecidableEq

/-- A runtime outcome: a returned error, a Rust panic (unwrap failure or
`usize` underflow), or exhaustion of the model's fuel. -/
inductive RunErr where
  | err : SudokuError → RunErr
  | panic : RunErr
  | fuelOut : RunErr
deriving DecidableEq

/-- `Result<(), SudokuError>` together with the panic/fuel outcomes. -/
inductive SudokuResult where
  | ok : SudokuResult
  | fail : RunErr → SudokuResult
deriving DecidableEq

/-- `i32_from_char` from the source: only '1'..'9' map to a value
(the '0' arm is commented out in the source). -/
def i32_from_char (c : Char) : Option Int :=
  if c == '1' then some 1
  else if c == '2' then some 2
  else if c == '3' then some 3
  else if c == '4' then some 4
  else if c == '5' then some 5
  else if c == '6' then some 6
  else if c == '7' then some 7
  else if c == '8' then some 8
  else if c == '9' then some 9
  else none

/-- `char_from32` from the source: 0..9 map to their digit characters. -/
def char_from32 (v : Int) : Option Char :=
  if v == 0 then some '0'
  else if v == 1 then some '1'
  else if v == 2 then some '2'
  else if v == 3 then some '3'
  else if v == 4 then some '4'
  else if v == 5 then some '5'
  else if v == 6 then some '6'
  else if v == 7 then some '7'
  else if v == 8 then some '8'
  else if v == 9 then some '9'
  else none

/-- A cell value: `Known(i32)` or `Unknown(BTreeSet<i32>)`.  The set is
modelled as its sorted-ascending element list, matching `BTreeSet` storage
and iteration order. -/
inductive BoxValue where
  | Known : Int → BoxValue
  | Unknown : List Int → BoxValue
deriving DecidableEq

/-- `BoxValue::init_unknown()`: the full candidate set `{1..9}`. -/
def BoxValue.init_unknown : BoxValue :=
  BoxValue.Unknown [1, 2, 3, 4, 5, 6, 7, 8, 9]

/-- A grid node: 1-based coordinates plus the cell value. -/
structure Node where
  row : Nat
  col : Nat
  value : BoxValue
deriving DecidableEq

/-- `Node::get_square`: the 3×3 square number (1..9) computed from the
node's own coordinate fields. -/
def Node.get_square (n : Node) : Nat :=
  ((n.row - 1) / 3) * 3 + (n.col - 1) / 3 + 1

/-- `Node::reverse_square`: the `idx`-th cell (0-based) of square
`square_id`; `none` models the explicit panics for arguments above 9. -/
def Node.reverse_square (square_id idx : Nat) : Option (Nat × Nat) :=
  if square_id > 9 then none
  else if idx > 9 then none
  else some (((square_id - 1) / 3) * 3 + idx / 3 + 1,
             ((square_id - 1) % 3) * 3 + idx % 3 + 1)

/-- The board: `Vec<Vec<Node>>` plus the `unknown_values: i32` counter. -/
structure SudokuBoard where
  board : List (List Node)
  unknown_values : Int
deriving DecidableEq

/-- `SudokuBoard::new()`: all 81 cells unknown with full candidate sets. -/
def SudokuBoard.new : SudokuBoard :=
  ⟨(List.range 9).map (fun r =>
      (List.range 9).map (fun c => ⟨r + 1, c + 1, BoxValue.init_unknown⟩)),
   9 * 9⟩

/-- Read the node stored at 0-based indices `(i, j)`. -/
def idxNode (b : SudokuBoard) (i j : Nat) : Option Node :=
  b.board[i]?.bind (fun rowL => rowL[j]?)

/-- Replace the value of the node at 0-based indices `(i, j)`, keeping its
coordinate fields (the Rust code assigns only to `.value`). -/
def idxSet (b : SudokuBoard) (i j : Nat) (v : BoxValue) : Option SudokuBoard :=
  b.board[i]?.bind (fun rowL =>
    rowL[j]?.bind (fun n =>
      some ⟨b.board.set i (rowL.set j ⟨n.row, n.col, v⟩), b.unknown_values⟩))

/-- `self.board.get(row-1).unwrap().get(col-1).unwrap()` with 1-based
coordinates; `none` models the unwrap panic. -/
def SudokuBoard.getNode (b : SudokuBoard) (row col : Nat) : Option Node :=
  idxNode b (row - 1) (col - 1)

/-- In-place value assignment at 1-based coordinates. -/
def SudokuBoard.setValue (b : SudokuBoard) (row col : Nat) (v : BoxValue) :
    Option SudokuBoard :=
  idxSet b (row - 1) (col - 1) v

/-- One arm of the peer scan in `mark_as_known`: for the cell at
`(row, col)`, skip a Known value, and for `Unknown(v)` remove `kv` and fail
with `NotSolvable` if the set became empty. -/
def removeStep (b : SudokuBoard) (row col : Nat) (kv : Int) :
    SudokuBoard × SudokuResult :=
  match b.getNode row col with
  | none => (b, .fail .panic)
  | some n =>
    match n.value with
    | .Known _ => (b, .ok)
    | .Unknown s =>
      let s2 := s.filter (fun x => x != kv)
      match b.setValue row col (.Unknown s2) with
      | none => (b, .fail .panic)
      | some b2 =>
        if s2.isEmpty then (b2, .fail (.err .NotSolvable)) else (b2, .ok)

/-- Early-return sequencing of fallible board operations: Rust's
`?`-style control flow (run `k` on the updated board only when the first
operation succeeded, otherwise return its failure). -/
def andThen (st : SudokuBoard × SudokuResult)
    (k : SudokuBoard → SudokuBoard × SudokuResult) :
    SudokuBoard × SudokuResult :=
  match st with
  | (b, .ok) => k b
  | (b, .fail e) => (b, .fail e)

/-- The square-peer arm of one scan iteration: `reverse_square sq i` (whose
`none` models the explicit panic) followed by the removal. -/
def squarePeer (sq i : Nat) (b : SudokuBoard) (kv : Int) :
    SudokuBoard × SudokuResult :=
  match Node.reverse_square sq i with
  | none => (b, .fail .panic)
  | some rc => removeStep b rc.1 rc.2 kv

/-- One iteration of the `for i in 0..9` scan of `mark_as_known`: the row
peer `(row, i+1)`, then the column peer `(i+1, col)`, then the square peer,
stopping at the first failure. -/
def markOne (row col : Nat) (kv : Int) (sq i : Nat) (b : SudokuBoard) :
    SudokuBoard × SudokuResult :=
  andThen (removeStep b row (i + 1) kv) (fun b1 =>
    andThen (removeStep b1 (i + 1) col kv) (fun b2 =>
      squarePeer sq i b2 kv))

/-- The whole `for i in 0..9` scan of `mark_as_known`; `fuel` counts the
remaining iterations (it is `9 - i`). -/
def markIter (row col : Nat) (kv : Int) (sq : Nat) :
    Nat → Nat → SudokuBoard → SudokuBoard × SudokuResult
  | 0, _, b => (b, .ok)
  | fuel + 1, i, b =>
    andThen (markOne row col kv sq i b) (fun b3 =>
      markIter row col kv sq fuel (i + 1) b3)

/-- `SudokuBoard::mark_as_known` (the spec's `commit`): guard the ranges,
set the target cell to `Known(known_value)`, scan the row, column and square
removing the value from unknown peers, and on success decrement
`unknown_values`.  A coordinate of `0` passes the `> 9` guards and then
underflows `row - 1 : usize` in Rust, modelled by `panic`. -/
def SudokuBoard.mark_as_known (b : SudokuBoard) (row col : Nat)
    (known_value : Int) : SudokuBoard × SudokuResult :=
  if row > 9 then (b, .fail (.err .InvalidRange))
  else if col > 9 then (b, .fail (.err .InvalidRange))
  else if row = 0 ∨ col = 0 then (b, .fail .panic)
  else
    match b.setValue row col (.Known known_value) with
    | none => (b, .fail .panic)
    | some b1 =>
      match b1.getNode row col with
      | none => (b1, .fail .panic)
      | some n =>
        match markIter row col known_value n.get_square 9 0 b1 with
        | (b2, .fail e) => (b2, .fail e)
        | (b2, .ok) => (⟨b2.board, b2.unknown_values - 1⟩, .ok)

/-- `SudokuBoard::mark_single_option` (the spec's `commit_forced`). -/
def SudokuBoard.mark_single_option (b : SudokuBoard) (row col : Nat) :
    SudokuBoard × SudokuResult :=
  if row > 9 then (b, .fail (.err .InvalidRange))
  else if col > 9 then (b, .fail (.err .InvalidRange))
  else if row = 0 ∨ col = 0 then (b, .fail .panic)
  else
    match b.getNode row col with
    | none => (b, .fail .panic)
    | some n =>
      match n.value with
      | .Known _ => (b, .fail (.err .AlreadyKnown))
      | .Unknown s =>
        if s.isEmpty then (b, .fail (.err .NotSolvable))
        else if s.length ≠ 1 then (b, .fail (.err .TooManyOptions))
        else
          match s.head? with
          | none => (b, .fail .panic)
          | some v => b.mark_as_known row col v

/-- The character filter of `fill_board`: digits '0'..'9' and '-' consume a
grid position; everything else is skipped. -/
def recognizedChar (c : Char) : Bool :=
  c == '0' || c == '1' || c == '2' || c == '3' || c == '4' || c == '5' ||
  c == '6' || c == '7' || c == '8' || c == '9' || c == '-'

/-- `Result<SudokuBoard, SudokuError>` as returned by `fill_board`. -/
inductive FillResult where
  | ok : SudokuBoard → FillResult
  | fail : RunErr → FillResult
deriving DecidableEq

/-- The enumerated loop of `fill_board` over the filtered characters:
position `i` maps to `(i/9 + 1, i%9 + 1)` and each digit is committed. -/
def fillGo (i : Nat) (b : SudokuBoard) : List Char → FillResult
  | [] => .ok b
  | c :: rest =>
    match i32_from_char c with
    | some kv =>
      match b.mark_as_known (i / 9 + 1) (i % 9 + 1) kv with
      | (_, .fail e) => .fail e
      | (b2, .ok) => fillGo (i + 1) b2 rest
    | none => fillGo (i + 1) b rest

/-- `SudokuBoard::fill_board`. -/
def fill_board (s : List Char) : FillResult :=
  fillGo 0 SudokuBoard.new (s.filter recognizedChar)

/-- The rendering of one node in `print_board`. -/
def renderNode (n : Node) : Char :=
  match n.value with
  | .Known v => (char_from32 v).getD '?'
  | .Unknown _ => '-'

/-- `SudokuBoard::print_board` (the spec's `render`): the flattened
81-character row-major form. -/
def SudokuBoard.print_board (b : SudokuBoard) : List Char :=
  b.board.flatten.map renderNode

/-- The row-major search for a cell with a single candidate
(`solve`'s first `find`). -/
def findSingle (b : SudokuBoard) : Option Node :=
  b.board.flatten.find? (fun n =>
    match n.value with
    | .Unknown s => s.length == 1
    | _ => false)

/-- The positive candidate-set sizes of the board
(`map` then `filter(|v| v > &0)` in `solve`). -/
def altLens (b : SudokuBoard) : List Nat :=
  (b.board.flatten.map (fun n =>
    match n.value with
    | .Unknown s => s.length
    | _ => 0)).filter (fun l => decide (0 < l))

/-- The row-major search for a cell whose candidate-set size is `m`. -/
def findAlt (b : SudokuBoard) (m : Nat) : Option Node :=
  b.board.flatten.find? (fun n =>
    match n.value with
    | .Unknown s => s.length == m
    | _ => false)

/-- The `for alt_item in alt_set` loop of `solve`: clone the board, attempt
the commit with the result discarded (`let _ =`), recursively solve the
clone via `f`, adopt the clone's full state at the first success, and on a
returned error try the next candidate.  A panic (and fuel exhaustion in the
model) propagates instead of being caught. -/
def tryAlts (f : SudokuBoard → SudokuBoard × SudokuResult) (b : SudokuBoard)
    (row col : Nat) : List Int → SudokuBoard × SudokuResult
  | [] => (b, .fail (.err .NotSolvable))
  | v :: rest =>
    let alt0 := (b.mark_as_known row col v).1
    match f alt0 with
    | (alt1, .ok) => (⟨alt1.board, alt1.unknown_values⟩, .ok)
    | (alt1, .fail .panic) => (alt1, .fail .panic)
    | (alt1, .fail .fuelOut) => (alt1, .fail .fuelOut)
    | (_, .fail (.err _)) => tryAlts f b row col rest

/-- One pass of `solve`'s `while unknown_values > 0` loop, with `prev`
standing both for the next loop iteration and for the recursive call on a
cloned board (each strictly decreases the number of unknown cells, so each
costs one unit of fuel).  `min().unwrap()` on an empty candidate-size list
is the panic case. -/
def solveStep (prev : SudokuBoard → SudokuBoard × SudokuResult)
    (b : SudokuBoard) : SudokuBoard × SudokuResult :=
  if b.unknown_values > 0 then
    match findSingle b with
    | some nv =>
      andThen (b.mark_single_option nv.row nv.col) prev
    | none =>
      match (altLens b).min? with
      | none => (b, .fail .panic)
      | some m =>
        match findAlt b m with
        | none => (b, .fail (.err .Unknown))
        | some alt_node =>
          match alt_node.value with
          | .Known _ => (b, .fail (.err .Unknown))
          | .Unknown alt_set =>
            tryAlts prev b alt_node.row alt_node.col alt_set
  else (b, .ok)

/-- `SudokuBoard::solve` with explicit fuel. -/
def solveFuel (fuel : Nat) : SudokuBoard → SudokuBoard × SudokuResult :=
  Nat.rec (motive := fun _ => SudokuBoard → SudokuBoard × SudokuResult)
    (fun b => (b, .fail .fuelOut))
    (fun _ prev => solveStep prev)
    fuel

/-- `SudokuBoard::solve`: fuel 82 suffices for every well-formed board
(each fuel unit pays for one strict decrease of the 81-bounded number of
unknown cells; see the termination theorem below). -/
def SudokuBoard.solve (b : SudokuBoard) : SudokuBoard × SudokuResult :=
  solveFuel 82 b

/-! ### State predicates -/

/-- Whether a cell is still in candidate state. -/
def isUnknown : BoxValue → Bool
  | .Unknown _ => true
  | .Known _ => false

/-- The value stored at 0-based indices `(i, j)`. -/
def valAt (b : SudokuBoard) (i j : Nat) : Option BoxValue :=
  (idxNode b i j).map Node.value

/-- Strictly ascending list, the storage order of a `BTreeSet`. -/
def ascB : List Int → Bool
  | [] => true
  | [_] => true
  | x :: y :: rest => decide (x < y) && ascB (y :: rest)

/-- A healthy cell: known, or a sorted non-empty candidate set. -/
def cellOkB : BoxValue → Bool
  | .Known _ => true
  | .Unknown s => ascB s && !s.isEmpty

/-- Well-formedness of the grid itself: a 9×9 shape whose node at 0-based
position `(i, j)` carries the 1-based coordinates `(i+1, j+1)`.
`SudokuBoard::new` establishes this and no operation ever rewrites the
coordinate fields. -/
def WFb (b : SudokuBoard) : Bool :=
  (b.board.length == 9) &&
  (List.range 9).all (fun i =>
    match b.board[i]? with
    | none => false
    | some rowL =>
      (rowL.length == 9) &&
      (List.range 9).all (fun j =>
        match rowL[j]? with
        | none => false
        | some n => (n.row == i + 1) && (n.col == j + 1)))

def WF (b : SudokuBoard) : Prop := WFb b = true

/-- All candidate sets of the board are sorted and non-empty. -/
def SetsOkB (b : SudokuBoard) : Bool :=
  b.board.all (fun rowL => rowL.all (fun n => cellOkB n.value))

def SetsOk (b : SudokuBoard) : Prop := SetsOkB b = true

/-- The number of cells currently in candidate state. -/
def unknownCells (b : SudokuBoard) : Nat :=
  (b.board.map (fun rowL => rowL.countP (fun n => isUnknown n.value))).sum

/-- The consistency invariant of reachable boards: well-formed grid, healthy
candidate sets, and an accurate `unknown_values` counter. -/
def Inv (b : SudokuBoard) : Prop :=
  WF b ∧ SetsOk b ∧ b.unknown_values = (unknownCells b : Int)

/-- How one cell can evolve during the peer scan committing `kv`: a known
value is untouched, a candidate set either is untouched or loses exactly the
value `kv`. -/
def cellEvol (kv : Int) (w w' : Option BoxValue) : Prop :=
  match w with
  | some (.Known x) => w' = some (.Known x)
  | some (.Unknown s) =>
      w' = some (.Unknown s) ∨ w' = some (.Unknown (s.filter (fun x => x != kv)))
  | none => w' = none

/-- Pointwise evolution of the whole grid during the scan for `kv`. -/
def boardEvol (kv : Int) (b b' : SudokuBoard) : Prop :=
  ∀ i j, cellEvol kv (valAt b i j) (valAt b' i j)

/-- The unconditional effects of a scan fragment starting from `b`: the
counter field and the number of unknown cells are untouched, grid
well-formedness is kept, and every cell evolves by at most losing `kv`. -/
def Preserves (b : SudokuBoard) (st : SudokuBoard × SudokuResult)
    (kv : Int) : Prop :=
  st.1.unknown_values = b.unknown_values ∧
  unknownCells st.1 = unknownCells b ∧
  (WF b → WF st.1) ∧
  boardEvol kv b st.1

/-- A scan fragment never produces anything but success or `NotSolvable`
when started on a well-formed board at in-range coordinates. -/
def KindsOk (st : SudokuBoard × SudokuResult) : Prop :=
  st.2 = .ok ∨ st.2 = .fail (.err .NotSolvable)

/-- No unknown cell of the board dies when `kv` is removed: the filtered
candidate set of every unknown cell is non-empty.  This is the condition
making the scan of a commit of `kv` succeed. -/
def FilterAlive (kv : Int) (b : SudokuBoard) : Prop :=
  ∀ i j s, valAt b i j = some (.Unknown s) →
    s.filter (fun x => x != kv) ≠ []

/-- The scan performed by `mark_as_known r c` after the target cell has been
set: square number computed from the target's coordinates. -/
def markScan (b1 : SudokuBoard) (r c : Nat) (v : Int) :
    SudokuBoard × SudokuResult :=
  markIter r c v (((r - 1) / 3) * 3 + (c - 1) / 3 + 1) 9 0 b1

/-- What a scan or commit does to the rendering of an untouched cell: a
known value keeps its digit, a candidate cell stays a candidate cell. -/
def rendKeep (w w' : Option BoxValue) : Prop :=
  match w with
  | some (.Known x) => w' = some (.Known x)
  | some (.Unknown _) => ∃ s', w' = some (.Unknown s')
  | none => w' = none

/-! ### Claim-level definitions -/

/-- Scenario B input (the branching end-to-end test of the repository). -/
def scenarioB_input : List Char :=
  "500300600004001750000059100403200070006000000000000904700090315035000806619080000".toList

/-- Scenario B expected solution. -/
def scenarioB_solution : List Char :=
  "581327649924861753367459182493216578876945231152738964748692315235174896619583427".toList

/-- The end-to-end pipeline: fill, solve, render; `none` when either the
fill or the solve fails. -/
def solveRender (s : List Char) : Option (List Char) :=
  match fill_board s with
  | .ok b =>
    match b.solve with
    | (b2, .ok) => some b2.print_board
    | (_, .fail _) => none
  | .fail _ => none

/-- An input whose only givens are two fives in the first row. -/
def dupRowInput : List Char := '5' :: '5' :: List.replicate 79 '-'

/-- 81 placeholder zeros. -/
def zerosInput : List Char := List.replicate 81 '0'

/-- The digit and placeholder alphabet of a well-formed puzzle text
(the renderable subset: `'0'` is also accepted on input but renders
back as `'-'`). -/
def legalChars : List Char := ['1', '2', '3', '4', '5', '6', '7', '8', '9', '-']

/-- A fully known board (denormalized content, used as a boundary case). -/
def fullBoard : SudokuBoard :=
  ⟨(List.range 9).map (fun r =>
      (List.range 9).map (fun c => ⟨r + 1, c + 1, BoxValue.Known 1⟩)), 0⟩

/-- All 81 positions in 1-based coordinates. -/
def allPos : List (Nat × Nat) :=
  ((List.range 9).map (fun r =>
    (List.range 9).map (fun c => (r + 1, c + 1)))).flatten

/-- The 3×3 square number of a 1-based position. -/
def squareOf (p : Nat × Nat) : Nat :=
  ((p.1 - 1) / 3) * 3 + (p.2 - 1) / 3 + 1

/-- Two positions share a row, a column, or a 3×3 square. -/
def sameUnit (p q : Nat × Nat) : Bool :=
  (p.1 == q.1) || (p.2 == q.2) || (squareOf p == squareOf q)

/-- The known digit at a 1-based position, if any. -/
def knownAt (b : SudokuBoard) (p : Nat × Nat) : Option Int :=
  match valAt b (p.1 - 1) (p.2 - 1) with
  | some (.Known v) => some v
  | _ => none

/-- The candidate set at a 1-based position, if the cell is unknown. -/
def candAt (b : SudokuBoard) (p : Nat × Nat) : Option (List Int) :=
  match valAt b (p.1 - 1) (p.2 - 1) with
  | some (.Unknown s) => some s
  | _ => none

/-- No row, column, or 3×3 square of the board holds the same known digit
twice. -/
def noDupB (b : SudokuBoard) : Bool :=
  allPos.all (fun p => allPos.all (fun q =>
    (p == q) || !(sameUnit p q) ||
    (match knownAt b p, knownAt b q with
     | some v, some w => !(v == w)
     | _, _ => true)))

/-- Every candidate set excludes the known digits of its peers (the state
`commit` maintains by removing a committed value from its peers). -/
def propagatedB (b : SudokuBoard) : Bool :=
  allPos.all (fun p => allPos.all (fun q =>
    (p == q) || !(sameUnit p q) ||
    (match candAt b p, knownAt b q with
     | some s, some w => !(s.contains w)
     | _, _ => true)))

/-- The board states reachable through the public operations, with commits
applied to cells still in candidate state and fills of at most 81 consumed
positions. -/
inductive Reachable : SudokuBoard → Prop where
  | new : Reachable SudokuBoard.new
  | fill (s : List Char) (b : SudokuBoard) :
      (s.filter recognizedChar).length ≤ 81 →
      fill_board s = .ok b → Reachable b
  | commit (b : SudokuBoard) (r c : Nat) (v : Int) {s : List Int} :
      Reachable b → valAt b (r - 1) (c - 1) = some (.Unknown s) →
      (b.mark_as_known r c v).2 = .ok →
      Reachable (b.mark_as_known r c v).1
  | commit_forced (b : SudokuBoard) (r c : Nat) :
      Reachable b → (b.mark_single_option r c).2 = .ok →
      Reachable (b.mark_single_option r c).1
  | solve (b : SudokuBoard) (fuel : Nat) :
      Reachable b → (solveFuel fuel b).2 = .ok →
      Reachable (solveFuel fuel b).1

/-- An 81-character renderable input with digits and placeholders. -/
def rtInput : List Char := '1' :: '2' :: List.replicate 79 '-'

theorem solveFuel_zero (b : SudokuBoard) :
    solveFuel 0 b = (b, .fail .fuelOut) := rfl

theorem solveFuel_succ (n : Nat) (b : SudokuBoard) :
    solveFuel (n + 1) b = solveStep (solveFuel n) b := rfl

/-! ### Generic list lemmas -/

theorem mapSum_set {α : Type} (f : α → Nat) :
    ∀ (l : List α) (i : Nat) (r x : α), l[i]? = some r →
      ((l.set i x).map f).sum + f r = (l.map f).sum + f x := by
  intro l
  induction l with
  | nil => intro i r x h; simp at h
  | cons a t ih =>
    intro i r x h
    cases i with
    | zero =>
      simp only [List.getElem?_cons_zero, Option.some.injEq] at h
      subst h
      simp [List.set]
      omega
    | succ n =>
      simp only [List.getElem?_cons_succ] at h
      have := ih n r x h
      rw [List.set_cons_succ]
      simp only [List.map_cons, List.sum_cons]
      omega

theorem countP_set {α : Type} (p : α → Bool) :
    ∀ (l : List α) (j : Nat) (n x : α), l[j]? = some n →
      (l.set j x).countP p + (if p n then 1 else 0)
        = l.countP p + (if p x then 1 else 0) := by
  intro l
  induction l with
  | nil => intro j n x h; simp at h
  | cons a t ih =>
    intro j n x h
    cases j with
    | zero =>
      simp only [List.getElem?_cons_zero, Option.some.injEq] at h
      subst h
      simp [List.set, List.countP_cons]
      omega
    | succ m =>
      simp only [List.getElem?_cons_succ] at h
      have := ih m n x h
      simp [List.set, List.countP_cons]
      omega

theorem all_set {α : Type} (p : α → Bool) (l : List α) (j : Nat) (x : α)
    (hl : l.all p = true) (hx : p x = true) : (l.set j x).all p = true := by
  simp only [List.all_eq_true] at *
  intro y hy
  rcases List.mem_or_eq_of_mem_set hy with h | h
  · exact hl y h
  · subst h; exact hx

theorem ascB_iff_chain (s : List Int) :
    ascB s = true ↔ List.Chain' (· < ·) s := by
  induction s with
  | nil => simp [ascB]
  | cons x t ih =>
    cases t with
    | nil => simp [ascB]
    | cons y r =>
      rw [List.chain'_cons, ← ih]
      simp [ascB]

theorem ascB_pairwise (s : List Int) (h : ascB s = true) :
    List.Pairwise (· < ·) s :=
  List.chain'_iff_pairwise.mp ((ascB_iff_chain s).mp h)

theorem ascB_filter (p : Int → Bool) (s : List Int) (h : ascB s = true) :
    ascB (s.filter p) = true := by
  rw [ascB_iff_chain, List.chain'_iff_pairwise]
  exact List.Pairwise.filter p (ascB_pairwise s h)

theorem ascB_nodup (s : List Int) (h : ascB s = true) : s.Nodup :=
  (ascB_pairwise s h).imp (fun hlt => ne_of_lt hlt)

theorem bne_fun_eq (v : Int) :
    (fun x : Int => x != v) = (fun x : Int => decide (x ≠ v)) := by
  funext x
  by_cases hx : x = v <;> simp [hx]

theorem length_filter_bne (s : List Int) (v : Int) (h : s.Nodup) :
    s.length ≤ (s.filter (fun x => x != v)).length + 1 := by
  rw [← List.Nodup.erase_eq_filter h v]
  by_cases hm : v ∈ s
  · have := List.length_erase_add_one hm
    omega
  · rw [List.erase_of_not_mem hm]
    omega

/-! ### Well-formedness extraction -/

theorem wf_length {b : SudokuBoard} (h : WF b) : b.board.length = 9 := by
  unfold WF WFb at h
  simp only [Bool.and_eq_true, beq_iff_eq] at h
  exact h.1

theorem wf_row {b : SudokuBoard} (h : WF b) {i : Nat} (hi : i < 9) :
    ∃ rowL, b.board[i]? = some rowL ∧ rowL.length = 9 := by
  unfold WF WFb at h
  simp only [Bool.and_eq_true, beq_iff_eq, List.all_eq_true, List.mem_range] at h
  have h2 := h.2 i hi
  cases hrow : b.board[i]? with
  | none => rw [hrow] at h2; simp at h2
  | some rowL =>
    rw [hrow] at h2
    simp only [Bool.and_eq_true, beq_iff_eq, List.all_eq_true] at h2
    exact ⟨rowL, rfl, h2.1⟩

theorem wf_node {b : SudokuBoard} (h : WF b) {i j : Nat} (hi : i < 9)
    (hj : j < 9) :
    ∃ n, idxNode b i j = some n ∧ n.row = i + 1 ∧ n.col = j + 1 := by
  have hw := h
  unfold WF WFb at hw
  simp only [Bool.and_eq_true, beq_iff_eq, List.all_eq_true, List.mem_range] at hw
  have h2 := hw.2 i hi
  cases hrow : b.board[i]? with
  | none => rw [hrow] at h2; simp at h2
  | some rowL =>
    rw [hrow] at h2
    simp only [Bool.and_eq_true, beq_iff_eq, List.all_eq_true, List.mem_range] at h2
    have h3 := h2.2 j hj
    cases hnode : rowL[j]? with
    | none => rw [hnode] at h3; simp at h3
    | some n =>
      rw [hnode] at h3
      simp only [Bool.and_eq_true, beq_iff_eq] at h3
      refine ⟨n, ?_, h3.1, h3.2⟩
      simp [idxNode, hrow, hnode]

theorem wf_valAt {b : SudokuBoard} (h : WF b) {i j : Nat} (hi : i < 9)
    (hj : j < 9) : ∃ w, valAt b i j = some w := by
  obtain ⟨n, hn, -, -⟩ := wf_node h hi hj
  exact ⟨n.value, by unfold valAt; rw [hn]; rfl⟩

/-! ### Lemmas about single-cell updates -/

theorem idxSet_cases {b b' : SudokuBoard} {i j : Nat} {v : BoxValue}
    (h : idxSet b i j v = some b') :
    ∃ rowL n, b.board[i]? = some rowL ∧ rowL[j]? = some n ∧
      b'.board = b.board.set i (rowL.set j ⟨n.row, n.col, v⟩) ∧
      b'.unknown_values = b.unknown_values := by
  unfold idxSet at h
  cases hrow : b.board[i]? with
  | none => rw [hrow] at h; simp at h
  | some rowL =>
    rw [hrow] at h
    simp only [Option.some_bind] at h
    cases hnode : rowL[j]? with
    | none => rw [hnode] at h; simp at h
    | some n =>
      rw [hnode] at h
      simp only [Option.some_bind, Option.some.injEq] at h
      subst h
      exact ⟨rowL, n, rfl, hnode, rfl, rfl⟩

theorem idxSet_isSome {b : SudokuBoard} {i j : Nat} (v : BoxValue)
    (hn : (idxNode b i j).isSome) : ∃ b', idxSet b i j v = some b' := by
  unfold idxNode at hn
  unfold idxSet
  cases hrow : b.board[i]? with
  | none => rw [hrow] at hn; simp at hn
  | some rowL =>
    rw [hrow] at hn
    simp only [Option.some_bind] at hn ⊢
    cases hnode : rowL[j]? with
    | none => rw [hnode] at hn; simp at hn
    | some n =>
      simp only [Option.some_bind]
      exact ⟨_, rfl⟩

theorem idxSet_idxNode_self {b b' : SudokuBoard} {i j : Nat} {v : BoxValue}
    (h : idxSet b i j v = some b') :
    ∃ n, idxNode b i j = some n ∧ idxNode b' i j = some ⟨n.row, n.col, v⟩ := by
  obtain ⟨rowL, n, hrow, hnode, hb, -⟩ := idxSet_cases h
  have hi : i < b.board.length := (List.getElem?_eq_some_iff.mp hrow).1
  have hj : j < rowL.length := (List.getElem?_eq_some_iff.mp hnode).1
  refine ⟨n, ?_, ?_⟩
  · simp [idxNode, hrow, hnode]
  · unfold idxNode
    rw [hb]
    rw [List.getElem?_set_self hi]
    simp only [Option.some_bind]
    rw [List.getElem?_set_self (by simpa using hj)]

theorem idxSet_idxNode_ne {b b' : SudokuBoard} {i j : Nat} {v : BoxValue}
    (h : idxSet b i j v = some b') (i' j' : Nat)
    (hne : i' ≠ i ∨ j' ≠ j) :
    idxNode b' i' j' = idxNode b i' j' := by
  obtain ⟨rowL, n, hrow, hnode, hb, -⟩ := idxSet_cases h
  unfold idxNode
  rw [hb]
  by_cases hii : i' = i
  · subst hii
    rcases hne with hne | hne
    · exact absurd rfl hne
    · have hi : i' < b.board.length := (List.getElem?_eq_some_iff.mp hrow).1
      rw [List.getElem?_set_self hi, hrow]
      simp only [Option.some_bind]
      rw [List.getElem?_set_ne (by omega)]
  · rw [List.getElem?_set_ne (by omega)]

theorem idxSet_unknown_values {b b' : SudokuBoard} {i j : Nat} {v : BoxValue}
    (h : idxSet b i j v = some b') :
    b'.unknown_values = b.unknown_values :=
  (idxSet_cases h).choose_spec.choose_spec.2.2.2

theorem idxSet_WF {b b' : SudokuBoard} {i j : Nat} {v : BoxValue}
    (h : idxSet b i j v = some b') (hwf : WF b) : WF b' := by
  obtain ⟨rowL, n, hrow, hnode, hb, -⟩ := idxSet_cases h
  obtain ⟨hlen, hall⟩ : b.board.length = 9 ∧ _ := by
    unfold WF WFb at hwf
    simp only [Bool.and_eq_true, beq_iff_eq] at hwf
    exact hwf
  unfold WF WFb
  simp only [Bool.and_eq_true, beq_iff_eq]
  constructor
  · rw [hb, List.length_set, hlen]
  · simp only [List.all_eq_true, List.mem_range]
    intro i0 hi0
    simp only [List.all_eq_true, List.mem_range] at hall
    have h0 := hall i0 hi0
    by_cases hii : i0 = i
    · subst hii
      rw [hb]
      have hi : i0 < b.board.length := (List.getElem?_eq_some_iff.mp hrow).1
      rw [List.getElem?_set_self hi]
      rw [hrow] at h0
      simp only [Bool.and_eq_true, beq_iff_eq, List.all_eq_true, List.mem_range] at h0
      simp only [Bool.and_eq_true, beq_iff_eq, List.all_eq_true, List.mem_range,
        List.length_set]
      refine ⟨h0.1, ?_⟩
      intro j0 hj0
      by_cases hjj : j0 = j
      · subst hjj
        have hj : j0 < rowL.length := (List.getElem?_eq_some_iff.mp hnode).1
        rw [List.getElem?_set_self hj]
        have h1 := h0.2 j0 hj0
        rw [hnode] at h1
        simpa using h1
      · rw [List.getElem?_set_ne (by omega)]
        exact h0.2 j0 hj0
    · rw [hb, List.getElem?_set_ne (by omega)]
      exact h0

theorem idxSet_count {b b' : SudokuBoard} {i j : Nat} {v : BoxValue} {n : Node}
    (h : idxSet b i j v = some b') (hn : idxNode b i j = some n) :
    unknownCells b' + (if isUnknown n.value then 1 else 0)
      = unknownCells b + (if isUnknown v then 1 else 0) := by
  obtain ⟨rowL, n0, hrow, hnode, hb, -⟩ := idxSet_cases h
  have hn0 : n0 = n := by
    unfold idxNode at hn
    rw [hrow] at hn
    simp only [Option.some_bind] at hn
    rw [hnode] at hn
    exact Option.some.inj hn
  subst hn0
  unfold unknownCells
  rw [hb]
  have h1 := mapSum_set (fun rowL => rowL.countP (fun nd => isUnknown nd.value))
    b.board i rowL (rowL.set j ⟨n0.row, n0.col, v⟩) hrow
  have h2 := countP_set (fun nd => isUnknown nd.value) rowL j n0
    ⟨n0.row, n0.col, v⟩ hnode
  simp only at h1 h2
  omega

theorem idxSet_SetsOk {b b' : SudokuBoard} {i j : Nat} {v : BoxValue}
    (h : idxSet b i j v = some b') (hs : SetsOk b) (hv : cellOkB v = true) :
    SetsOk b' := by
  obtain ⟨rowL, n, hrow, hnode, hb, -⟩ := idxSet_cases h
  unfold SetsOk SetsOkB at hs ⊢
  rw [hb]
  have hrl : rowL ∈ b.board := List.getElem?_mem hrow
  have hrall : rowL.all (fun nd => cellOkB nd.value) = true :=
    List.all_eq_true.mp hs rowL hrl
  refine all_set _ _ _ _ hs ?_
  exact all_set _ _ _ _ hrall hv

/-! ### The peer scan, one cell at a time -/

theorem filter_bne_idem (s : List Int) (kv : Int) :
    (s.filter (fun x => x != kv)).filter (fun x => x != kv)
      = s.filter (fun x => x != kv) := by
  rw [List.filter_filter]
  congr 1
  funext x
  exact Bool.and_self _

theorem valAt_some {b : SudokuBoard} {i j : Nat} {w : BoxValue}
    (h : valAt b i j = some w) :
    ∃ n, idxNode b i j = some n ∧ n.value = w := by
  unfold valAt at h
  cases hn : idxNode b i j with
  | none => rw [hn] at h; simp at h
  | some n =>
    rw [hn] at h
    simp at h
    exact ⟨n, rfl, h⟩

theorem SetsOk_at {b : SudokuBoard} (hs : SetsOk b) {i j : Nat} {w : BoxValue}
    (h : valAt b i j = some w) : cellOkB w = true := by
  obtain ⟨n, hn, hv⟩ := valAt_some h
  unfold idxNode at hn
  cases hrow : b.board[i]? with
  | none => rw [hrow] at hn; simp at hn
  | some rowL =>
    rw [hrow] at hn
    simp only [Option.some_bind] at hn
    unfold SetsOk SetsOkB at hs
    have h1 := List.all_eq_true.mp hs rowL (List.getElem?_mem hrow)
    have h2 := List.all_eq_true.mp h1 n (List.getElem?_mem hn)
    rw [hv] at h2
    exact h2

theorem cellEvol_refl (kv : Int) (w : Option BoxValue) : cellEvol kv w w := by
  unfold cellEvol
  rcases w with - | w
  · rfl
  · cases w
    · rfl
    · exact Or.inl rfl

theorem cellEvol_trans {kv : Int} {w w' w'' : Option BoxValue}
    (h1 : cellEvol kv w w') (h2 : cellEvol kv w' w'') : cellEvol kv w w'' := by
  unfold cellEvol at *
  rcases w with - | w
  · subst h1; exact h2
  · cases w with
    | Known x => subst h1; exact h2
    | Unknown s =>
      rcases h1 with h1 | h1
      · subst h1; exact h2
      · subst h1
        rcases h2 with h2 | h2
        · exact Or.inr h2
        · rw [filter_bne_idem] at h2
          exact Or.inr h2

theorem boardEvol_refl (kv : Int) (b : SudokuBoard) : boardEvol kv b b :=
  fun i j => cellEvol_refl kv (valAt b i j)

theorem boardEvol_trans {kv : Int} {b b' b'' : SudokuBoard}
    (h1 : boardEvol kv b b') (h2 : boardEvol kv b' b'') : boardEvol kv b b'' :=
  fun i j => cellEvol_trans (h1 i j) (h2 i j)

/-- Exhaustive description of `removeStep`. -/
theorem removeStep_cases (b : SudokuBoard) (r c : Nat) (kv : Int) :
    (idxNode b (r - 1) (c - 1) = none ∧ removeStep b r c kv = (b, .fail .panic))
    ∨ (∃ x, valAt b (r - 1) (c - 1) = some (.Known x) ∧
        removeStep b r c kv = (b, .ok))
    ∨ (∃ s b2, valAt b (r - 1) (c - 1) = some (.Unknown s) ∧
        idxSet b (r - 1) (c - 1)
          (.Unknown (s.filter (fun x => x != kv))) = some b2 ∧
        (((s.filter (fun x => x != kv)).isEmpty = true ∧
            removeStep b r c kv = (b2, .fail (.err .NotSolvable)))
         ∨ ((s.filter (fun x => x != kv)).isEmpty = false ∧
            removeStep b r c kv = (b2, .ok)))) := by
  cases hn : idxNode b (r - 1) (c - 1) with
  | none =>
    refine Or.inl ⟨rfl, ?_⟩
    simp only [removeStep, SudokuBoard.getNode, hn]
  | some n =>
    cases hv : n.value with
    | Known x =>
      refine Or.inr (Or.inl ⟨x, ?_, ?_⟩)
      · simp [valAt, hn, hv]
      · simp only [removeStep, SudokuBoard.getNode, hn, hv]
    | Unknown s =>
      obtain ⟨b2, hb2⟩ :=
        idxSet_isSome (b := b) (i := r - 1) (j := c - 1)
          (BoxValue.Unknown (s.filter (fun x => x != kv))) (by rw [hn]; rfl)
      refine Or.inr (Or.inr ⟨s, b2, ?_, hb2, ?_⟩)
      · simp [valAt, hn, hv]
      · by_cases he : (s.filter (fun x => x != kv)).isEmpty
        · refine Or.inl ⟨he, ?_⟩
          simp only [removeStep, SudokuBoard.getNode, SudokuBoard.setValue,
            hn, hv, hb2, he, if_true]
        · refine Or.inr ⟨by simpa using he, ?_⟩
          simp only [removeStep, SudokuBoard.getNode, SudokuBoard.setValue,
            hn, hv, hb2, if_neg he]

theorem removeStep_unknown_values (b : SudokuBoard) (r c : Nat) (kv : Int) :
    (removeStep b r c kv).1.unknown_values = b.unknown_values := by
  rcases removeStep_cases b r c kv with ⟨-, h⟩ | ⟨x, -, h⟩ |
    ⟨s, b2, -, hset, ⟨-, h⟩ | ⟨-, h⟩⟩ <;>
    rw [h]
  · exact idxSet_unknown_values hset
  · exact idxSet_unknown_values hset

theorem removeStep_count (b : SudokuBoard) (r c : Nat) (kv : Int) :
    unknownCells (removeStep b r c kv).1 = unknownCells b := by
  rcases removeStep_cases b r c kv with ⟨-, h⟩ | ⟨x, -, h⟩ |
    ⟨s, b2, hval, hset, ⟨-, h⟩ | ⟨-, h⟩⟩ <;>
    simp only [h]
  all_goals {
    obtain ⟨n, hn, hv⟩ := valAt_some hval
    have := idxSet_count hset hn
    rw [hv] at this
    simp only [isUnknown, if_true] at this
    omega }

theorem removeStep_WF {b : SudokuBoard} (r c : Nat) (kv : Int) (hwf : WF b) :
    WF (removeStep b r c kv).1 := by
  rcases removeStep_cases b r c kv with ⟨-, h⟩ | ⟨x, -, h⟩ |
    ⟨s, b2, -, hset, ⟨-, h⟩ | ⟨-, h⟩⟩ <;>
    rw [h]
  · exact hwf
  · exact hwf
  · exact idxSet_WF hset hwf
  · exact idxSet_WF hset hwf

theorem removeStep_evol (b : SudokuBoard) (r c : Nat) (kv : Int) :
    boardEvol kv b (removeStep b r c kv).1 := by
  rcases removeStep_cases b r c kv with ⟨-, h⟩ | ⟨x, -, h⟩ |
    ⟨s, b2, hval, hset, ⟨-, h⟩ | ⟨-, h⟩⟩ <;>
    rw [h]
  · exact boardEvol_refl kv b
  · exact boardEvol_refl kv b
  all_goals {
    intro i j
    by_cases hij : i = r - 1 ∧ j = c - 1
    · obtain ⟨hi, hj⟩ := hij
      subst hi; subst hj
      obtain ⟨n, -, hn'⟩ := idxSet_idxNode_self hset
      rw [hval]
      refine Or.inr ?_
      unfold valAt
      rw [hn']
      rfl
    · have hvv : valAt b2 i j = valAt b i j := by
        unfold valAt
        rw [idxSet_idxNode_ne hset i j (by tauto)]
      rw [hvv]
      exact cellEvol_refl kv _ }

theorem removeStep_no_panic {b : SudokuBoard} {r c : Nat} (kv : Int)
    (h : (idxNode b (r - 1) (c - 1)).isSome) :
    (removeStep b r c kv).2 = .ok ∨
      (removeStep b r c kv).2 = .fail (.err .NotSolvable) := by
  rcases removeStep_cases b r c kv with ⟨hn, hr⟩ | ⟨x, -, hr⟩ |
    ⟨s, b2, -, -, ⟨-, hr⟩ | ⟨-, hr⟩⟩
  · rw [hn] at h; simp at h
  · rw [hr]; exact Or.inl rfl
  · rw [hr]; exact Or.inr rfl
  · rw [hr]; exact Or.inl rfl

theorem removeStep_SetsOk {b : SudokuBoard} {r c : Nat} {kv : Int}
    (hs : SetsOk b) (hok : (removeStep b r c kv).2 = .ok) :
    SetsOk (removeStep b r c kv).1 := by
  rcases removeStep_cases b r c kv with ⟨-, hr⟩ | ⟨x, -, hr⟩ |
    ⟨s, b2, hval, hset, ⟨-, hr⟩ | ⟨he, hr⟩⟩ <;> rw [hr]
  · exact hs
  · exact hs
  · rw [hr] at hok
    simp at hok
  · have hcell := SetsOk_at hs hval
    unfold cellOkB at hcell
    simp only [Bool.and_eq_true] at hcell
    refine idxSet_SetsOk hset hs ?_
    unfold cellOkB
    simp only [Bool.and_eq_true]
    exact ⟨ascB_filter _ _ hcell.1, by simp [he]⟩

/-- If the cell exists and is either known, or unknown with a set in which
removing `kv` leaves at least one candidate, the step succeeds. -/
theorem removeStep_ok {b : SudokuBoard} {r c : Nat} {kv : Int}
    (h : (idxNode b (r - 1) (c - 1)).isSome)
    (hne : ∀ s, valAt b (r - 1) (c - 1) = some (.Unknown s) →
      s.filter (fun x => x != kv) ≠ []) :
    (removeStep b r c kv).2 = .ok := by
  rcases removeStep_cases b r c kv with ⟨hn, hr⟩ | ⟨x, -, hr⟩ |
    ⟨s, b2, hval, -, ⟨he, hr⟩ | ⟨-, hr⟩⟩
  · rw [hn] at h; simp at h
  · rw [hr]
  · exact absurd (List.isEmpty_iff.mp he) (hne s hval)
  · rw [hr]

/-! ### The scan loop -/

theorem andThen_cases (st : SudokuBoard × SudokuResult)
    (k : SudokuBoard → SudokuBoard × SudokuResult) :
    (st.2 = .ok ∧ andThen st k = k st.1) ∨
    (∃ e, st.2 = .fail e ∧ andThen st k = (st.1, .fail e)) := by
  rcases st with ⟨b, res⟩
  cases res with
  | ok => exact Or.inl ⟨rfl, rfl⟩
  | fail e => exact Or.inr ⟨e, rfl, rfl⟩

theorem wf_idx_isSome {b : SudokuBoard} (h : WF b) {r c : Nat}
    (hr1 : 1 ≤ r) (hr9 : r ≤ 9) (hc1 : 1 ≤ c) (hc9 : c ≤ 9) :
    (idxNode b (r - 1) (c - 1)).isSome := by
  obtain ⟨n, hn, -, -⟩ := wf_node h (i := r - 1) (j := c - 1)
    (by omega) (by omega)
  rw [hn]; rfl

theorem reverse_square_some {sq i : Nat} (hsq : sq ≤ 9) (hi : i ≤ 9) :
    ∃ rc, Node.reverse_square sq i = some rc := by
  unfold Node.reverse_square
  rw [if_neg (by omega), if_neg (by omega)]
  exact ⟨_, rfl⟩

theorem reverse_square_bounds {sq i r' c' : Nat}
    (h : Node.reverse_square sq i = some (r', c')) (hsq : sq ≤ 9) (hi : i ≤ 8) :
    1 ≤ r' ∧ r' ≤ 9 ∧ 1 ≤ c' ∧ c' ≤ 9 := by
  unfold Node.reverse_square at h
  rw [if_neg (by omega), if_neg (by omega)] at h
  simp only [Option.some.injEq, Prod.mk.injEq] at h
  obtain ⟨h1, h2⟩ := h
  omega

theorem Preserves_refl (b : SudokuBoard) (res : SudokuResult) (kv : Int) :
    Preserves b (b, res) kv :=
  ⟨rfl, rfl, fun h => h, boardEvol_refl kv b⟩

theorem removeStep_preserves (b : SudokuBoard) (r c : Nat) (kv : Int) :
    Preserves b (removeStep b r c kv) kv :=
  ⟨removeStep_unknown_values b r c kv, removeStep_count b r c kv,
   removeStep_WF r c kv, removeStep_evol b r c kv⟩

theorem andThen_preserves {b : SudokuBoard} {st : SudokuBoard × SudokuResult}
    {k : SudokuBoard → SudokuBoard × SudokuResult} {kv : Int}
    (h1 : Preserves b st kv) (h2 : Preserves st.1 (k st.1) kv) :
    Preserves b (andThen st k) kv := by
  rcases andThen_cases st k with ⟨-, heq⟩ | ⟨e, -, heq⟩
  · rw [heq]
    exact ⟨h2.1.trans h1.1, h2.2.1.trans h1.2.1,
      fun hw => h2.2.2.1 (h1.2.2.1 hw),
      boardEvol_trans h1.2.2.2 h2.2.2.2⟩
  · rw [heq]
    exact ⟨h1.1, h1.2.1, h1.2.2.1, h1.2.2.2⟩

theorem squarePeer_preserves (sq i : Nat) (b : SudokuBoard) (kv : Int) :
    Preserves b (squarePeer sq i b kv) kv := by
  unfold squarePeer
  cases h : Node.reverse_square sq i with
  | none => exact Preserves_refl b _ kv
  | some rc => exact removeStep_preserves b rc.1 rc.2 kv

theorem markOne_preserves (row col : Nat) (kv : Int) (sq i : Nat)
    (b : SudokuBoard) : Preserves b (markOne row col kv sq i b) kv := by
  unfold markOne
  refine andThen_preserves (removeStep_preserves b row (i + 1) kv) ?_
  refine andThen_preserves (removeStep_preserves _ (i + 1) col kv) ?_
  exact squarePeer_preserves sq i _ kv

theorem markIter_preserves (row col : Nat) (kv : Int) (sq : Nat) :
    ∀ fuel i b, Preserves b (markIter row col kv sq fuel i b) kv := by
  intro fuel
  induction fuel with
  | zero => intro i b; exact Preserves_refl b _ kv
  | succ f ih =>
    intro i b
    unfold markIter
    exact andThen_preserves (markOne_preserves row col kv sq i b)
      (ih (i + 1) _)

theorem andThen_kinds {st : SudokuBoard × SudokuResult}
    {k : SudokuBoard → SudokuBoard × SudokuResult}
    (h1 : KindsOk st) (h2 : st.2 = .ok → KindsOk (k st.1)) :
    KindsOk (andThen st k) := by
  rcases andThen_cases st k with ⟨hok, heq⟩ | ⟨e, hf, heq⟩
  · rw [heq]; exact h2 hok
  · rw [heq]
    rcases h1 with h1 | h1
    · rw [h1] at hf; cases hf
    · rw [hf] at h1
      exact Or.inr h1

theorem removeStep_kinds {b : SudokuBoard} {r c : Nat} (kv : Int)
    (hwf : WF b) (hr1 : 1 ≤ r) (hr9 : r ≤ 9) (hc1 : 1 ≤ c) (hc9 : c ≤ 9) :
    KindsOk (removeStep b r c kv) :=
  removeStep_no_panic kv (wf_idx_isSome hwf hr1 hr9 hc1 hc9)

theorem squarePeer_kinds {sq i : Nat} {b : SudokuBoard} (kv : Int)
    (hwf : WF b) (hsq : sq ≤ 9) (hi : i ≤ 8) :
    KindsOk (squarePeer sq i b kv) := by
  unfold squarePeer
  obtain ⟨rc, hrc⟩ := reverse_square_some (i := i) hsq (by omega)
  rw [hrc]
  rcases rc with ⟨r', c'⟩
  obtain ⟨h1, h2, h3, h4⟩ := reverse_square_bounds hrc hsq hi
  exact removeStep_kinds kv hwf h1 h2 h3 h4

theorem markOne_kinds {row col : Nat} {kv : Int} {sq i : Nat}
    {b : SudokuBoard} (hwf : WF b) (hr1 : 1 ≤ row) (hr9 : row ≤ 9)
    (hc1 : 1 ≤ col) (hc9 : col ≤ 9) (hsq : sq ≤ 9) (hi : i ≤ 8) :
    KindsOk (markOne row col kv sq i b) := by
  unfold markOne
  refine andThen_kinds (removeStep_kinds kv hwf hr1 hr9 (by omega) (by omega))
    (fun hok1 => ?_)
  have hwf1 : WF (removeStep b row (i + 1) kv).1 :=
    (removeStep_preserves b row (i + 1) kv).2.2.1 hwf
  refine andThen_kinds (removeStep_kinds kv hwf1 (by omega) (by omega) hc1 hc9)
    (fun hok2 => ?_)
  have hwf2 : WF (removeStep (removeStep b row (i + 1) kv).1 (i + 1) col kv).1 :=
    (removeStep_preserves _ (i + 1) col kv).2.2.1 hwf1
  exact squarePeer_kinds kv hwf2 hsq hi

theorem markIter_kinds {row col : Nat} {kv : Int} {sq : Nat} :
    ∀ fuel i (b : SudokuBoard), WF b → 1 ≤ row → row ≤ 9 → 1 ≤ col →
      col ≤ 9 → sq ≤ 9 → i + fuel ≤ 9 →
      KindsOk (markIter row col kv sq fuel i b) := by
  intro fuel
  induction fuel with
  | zero => intro i b _ _ _ _ _ _ _; exact Or.inl rfl
  | succ f ih =>
    intro i b hwf hr1 hr9 hc1 hc9 hsq hif
    unfold markIter
    refine andThen_kinds
      (markOne_kinds hwf hr1 hr9 hc1 hc9 hsq (by omega)) (fun hok => ?_)
    have hwf1 : WF (markOne row col kv sq i b).1 :=
      (markOne_preserves row col kv sq i b).2.2.1 hwf
    exact ih (i + 1) _ hwf1 hr1 hr9 hc1 hc9 hsq (by omega)

theorem squarePeer_SetsOk {sq i : Nat} {b : SudokuBoard} {kv : Int}
    (hs : SetsOk b) (hok : (squarePeer sq i b kv).2 = .ok) :
    SetsOk (squarePeer sq i b kv).1 := by
  unfold squarePeer at hok ⊢
  cases h : Node.reverse_square sq i with
  | none => rw [h] at hok; simp at hok
  | some rc =>
    rw [h] at hok
    exact removeStep_SetsOk hs hok

theorem markOne_SetsOk {row col : Nat} {kv : Int} {sq i : Nat}
    {b : SudokuBoard} (hs : SetsOk b)
    (hok : (markOne row col kv sq i b).2 = .ok) :
    SetsOk (markOne row col kv sq i b).1 := by
  unfold markOne at hok ⊢
  rcases andThen_cases (removeStep b row (i + 1) kv) _ with
    ⟨hok1, heq1⟩ | ⟨e, hf1, heq1⟩
  · rw [heq1] at hok ⊢
    have hs1 := removeStep_SetsOk hs hok1
    rcases andThen_cases (removeStep (removeStep b row (i + 1) kv).1
        (i + 1) col kv) _ with ⟨hok2, heq2⟩ | ⟨e, hf2, heq2⟩
    · rw [heq2] at hok ⊢
      exact squarePeer_SetsOk (removeStep_SetsOk hs1 hok2) hok
    · rw [heq2] at hok
      simp at hok
  · rw [heq1] at hok
    simp at hok

theorem markIter_SetsOk {row col : Nat} {kv : Int} {sq : Nat} :
    ∀ fuel i (b : SudokuBoard), SetsOk b →
      (markIter row col kv sq fuel i b).2 = .ok →
      SetsOk (markIter row col kv sq fuel i b).1 := by
  intro fuel
  induction fuel with
  | zero => intro i b hs _; exact hs
  | succ f ih =>
    intro i b hs hok
    unfold markIter at hok ⊢
    rcases andThen_cases (markOne row col kv sq i b) _ with
      ⟨hok1, heq1⟩ | ⟨e, hf1, heq1⟩
    · rw [heq1] at hok ⊢
      exact ih (i + 1) _ (markOne_SetsOk hs hok1) hok
    · rw [heq1] at hok
      simp at hok

theorem FilterAlive_evol {kv : Int} {b b' : SudokuBoard}
    (h : boardEvol kv b b') (hp : FilterAlive kv b) : FilterAlive kv b' := by
  intro i j s hv
  have hc := h i j
  unfold cellEvol at hc
  cases hvb : valAt b i j with
  | none =>
    rw [hvb] at hc
    rw [hc] at hv
    cases hv
  | some w =>
    cases w with
    | Known x =>
      rw [hvb] at hc
      rw [hc] at hv
      simp at hv
    | Unknown s0 =>
      rw [hvb] at hc
      rcases hc with hc | hc
      · rw [hc] at hv
        simp only [Option.some.injEq, BoxValue.Unknown.injEq] at hv
        subst hv
        exact hp i j s0 hvb
      · rw [hc] at hv
        simp only [Option.some.injEq, BoxValue.Unknown.injEq] at hv
        subst hv
        rw [filter_bne_idem]
        exact hp i j s0 hvb

theorem removeStep_alive_ok {b : SudokuBoard} {r c : Nat} {kv : Int}
    (hp : FilterAlive kv b) (h : (idxNode b (r - 1) (c - 1)).isSome) :
    (removeStep b r c kv).2 = .ok :=
  removeStep_ok h (fun s hs => hp (r - 1) (c - 1) s hs)

theorem squarePeer_ok {sq i : Nat} {b : SudokuBoard} {kv : Int}
    (hwf : WF b) (hp : FilterAlive kv b) (hsq : sq ≤ 9) (hi : i ≤ 8) :
    (squarePeer sq i b kv).2 = .ok := by
  unfold squarePeer
  obtain ⟨rc, hrc⟩ := reverse_square_some (i := i) hsq (by omega)
  rw [hrc]
  rcases rc with ⟨r', c'⟩
  obtain ⟨h1, h2, h3, h4⟩ := reverse_square_bounds hrc hsq hi
  exact removeStep_alive_ok hp (wf_idx_isSome hwf h1 h2 h3 h4)

theorem markOne_ok {row col : Nat} {kv : Int} {sq i : Nat}
    {b : SudokuBoard} (hwf : WF b) (hp : FilterAlive kv b)
    (hr1 : 1 ≤ row) (hr9 : row ≤ 9) (hc1 : 1 ≤ col) (hc9 : col ≤ 9)
    (hsq : sq ≤ 9) (hi : i ≤ 8) :
    (markOne row col kv sq i b).2 = .ok ∧
      WF (markOne row col kv sq i b).1 ∧
      FilterAlive kv (markOne row col kv sq i b).1 := by
  have hok1 : (removeStep b row (i + 1) kv).2 = .ok :=
    removeStep_alive_ok hp (wf_idx_isSome hwf hr1 hr9 (by omega) (by omega))
  have hpr1 := removeStep_preserves b row (i + 1) kv
  have hwf1 := hpr1.2.2.1 hwf
  have hp1 := FilterAlive_evol hpr1.2.2.2 hp
  have hok2 : (removeStep (removeStep b row (i + 1) kv).1
      (i + 1) col kv).2 = .ok :=
    removeStep_alive_ok hp1 (wf_idx_isSome hwf1 (by omega) (by omega) hc1 hc9)
  have hpr2 := removeStep_preserves (removeStep b row (i + 1) kv).1
    (i + 1) col kv
  have hwf2 := hpr2.2.2.1 hwf1
  have hp2 := FilterAlive_evol hpr2.2.2.2 hp1
  have hok3 := @squarePeer_ok sq i _ kv hwf2 hp2 hsq hi
  have hpr3 := squarePeer_preserves sq i (removeStep
    (removeStep b row (i + 1) kv).1 (i + 1) col kv).1 kv
  have heq : markOne row col kv sq i b
      = squarePeer sq i (removeStep
        (removeStep b row (i + 1) kv).1 (i + 1) col kv).1 kv := by
    unfold markOne
    rcases andThen_cases (removeStep b row (i + 1) kv) _ with
      ⟨-, heq1⟩ | ⟨e, hf1, -⟩
    · rw [heq1]
      rcases andThen_cases (removeStep (removeStep b row (i + 1) kv).1
          (i + 1) col kv) _ with ⟨-, heq2⟩ | ⟨e, hf2, -⟩
      · rw [heq2]
      · rw [hok2] at hf2; cases hf2
    · rw [hok1] at hf1; cases hf1
  rw [heq]
  exact ⟨hok3, hpr3.2.2.1 hwf2, FilterAlive_evol hpr3.2.2.2 hp2⟩

theorem markIter_ok {row col : Nat} {kv : Int} {sq : Nat} :
    ∀ fuel i (b : SudokuBoard), WF b → FilterAlive kv b →
      1 ≤ row → row ≤ 9 → 1 ≤ col → col ≤ 9 → sq ≤ 9 → i + fuel ≤ 9 →
      (markIter row col kv sq fuel i b).2 = .ok := by
  intro fuel
  induction fuel with
  | zero => intro i b _ _ _ _ _ _ _ _; rfl
  | succ f ih =>
    intro i b hwf hp hr1 hr9 hc1 hc9 hsq hif
    obtain ⟨hok1, hwf1, hp1⟩ :=
      @markOne_ok row col kv sq i b hwf hp hr1 hr9 hc1 hc9 hsq
        (by omega)
    unfold markIter
    rcases andThen_cases (markOne row col kv sq i b) _ with
      ⟨-, heq1⟩ | ⟨e, hf1, -⟩
    · rw [heq1]
      exact ih (i + 1) _ hwf1 hp1 hr1 hr9 hc1 hc9 hsq (by omega)
    · rw [hok1] at hf1; cases hf1

/-! ### `mark_as_known` -/

theorem mark_out_of_range {b : SudokuBoard} {r c : Nat} (v : Int)
    (h : r > 9 ∨ c > 9) :
    b.mark_as_known r c v = (b, .fail (.err .InvalidRange)) := by
  unfold SudokuBoard.mark_as_known
  by_cases hr : r > 9
  · rw [if_pos hr]
  · rw [if_neg hr, if_pos (by omega)]

theorem mark_zero {b : SudokuBoard} {r c : Nat} (v : Int)
    (hr : ¬ r > 9) (hc : ¬ c > 9) (h : r = 0 ∨ c = 0) :
    b.mark_as_known r c v = (b, .fail .panic) := by
  unfold SudokuBoard.mark_as_known
  rw [if_neg hr, if_neg hc, if_pos h]

/-- The main path of `mark_as_known` on a well-formed board with in-range
coordinates: the target is set to `Known v`, then the scan runs with the
square number derived from the target's coordinate fields, and on scan
success the counter is decremented. -/
theorem mark_main {b : SudokuBoard} {r c : Nat} (v : Int) (hwf : WF b)
    (hr1 : 1 ≤ r) (hr9 : r ≤ 9) (hc1 : 1 ≤ c) (hc9 : c ≤ 9) :
    ∃ b1, idxSet b (r - 1) (c - 1) (.Known v) = some b1 ∧
      (((markScan b1 r c v).2 = .ok ∧
         b.mark_as_known r c v =
           (⟨(markScan b1 r c v).1.board,
             (markScan b1 r c v).1.unknown_values - 1⟩, .ok)) ∨
       (∃ e, (markScan b1 r c v).2 = .fail e ∧
         b.mark_as_known r c v = ((markScan b1 r c v).1, .fail e))) := by
  have hsome := wf_idx_isSome hwf hr1 hr9 hc1 hc9
  obtain ⟨b1, hb1⟩ := idxSet_isSome (BoxValue.Known v) hsome
  obtain ⟨n0, hn0, hrow0, hcol0⟩ := wf_node hwf (i := r - 1) (j := c - 1)
    (by omega) (by omega)
  obtain ⟨m, hm, hm'⟩ := idxSet_idxNode_self hb1
  have hmn : m = n0 := by
    rw [hm] at hn0
    exact Option.some.inj hn0
  subst hmn
  have hrr : m.row = r := by omega
  have hcc : m.col = c := by omega
  refine ⟨b1, hb1, ?_⟩
  have hEq : b.mark_as_known r c v =
      (match markScan b1 r c v with
       | (b2, .fail e) => (b2, .fail e)
       | (b2, .ok) => (⟨b2.board, b2.unknown_values - 1⟩, .ok)) := by
    unfold SudokuBoard.mark_as_known SudokuBoard.setValue SudokuBoard.getNode
    rw [if_neg (by omega : ¬ r > 9), if_neg (by omega : ¬ c > 9),
      if_neg (by omega : ¬ (r = 0 ∨ c = 0))]
    simp only [hb1, hm', Node.get_square, hrr, hcc]
    rfl
  rcases hscan : markScan b1 r c v with ⟨b2, res⟩
  cases res with
  | ok =>
    refine Or.inl ⟨rfl, ?_⟩
    rw [hEq, hscan]
  | fail e =>
    refine Or.inr ⟨e, rfl, ?_⟩
    rw [hEq, hscan]

theorem markScan_preserves (b1 : SudokuBoard) (r c : Nat) (v : Int) :
    Preserves b1 (markScan b1 r c v) v :=
  markIter_preserves r c v _ 9 0 b1

theorem markScan_kinds {b1 : SudokuBoard} {r c : Nat} (v : Int)
    (hwf : WF b1) (hr1 : 1 ≤ r) (hr9 : r ≤ 9) (hc1 : 1 ≤ c) (hc9 : c ≤ 9) :
    KindsOk (markScan b1 r c v) :=
  markIter_kinds 9 0 b1 hwf hr1 hr9 hc1 hc9 (by omega) (by omega)

theorem markScan_SetsOk {b1 : SudokuBoard} {r c : Nat} {v : Int}
    (hs : SetsOk b1) (hok : (markScan b1 r c v).2 = .ok) :
    SetsOk (markScan b1 r c v).1 :=
  markIter_SetsOk 9 0 b1 hs hok

theorem markScan_ok {b1 : SudokuBoard} {r c : Nat} {v : Int}
    (hwf : WF b1) (hp : FilterAlive v b1)
    (hr1 : 1 ≤ r) (hr9 : r ≤ 9) (hc1 : 1 ≤ c) (hc9 : c ≤ 9) :
    (markScan b1 r c v).2 = .ok :=
  markIter_ok 9 0 b1 hwf hp hr1 hr9 hc1 hc9 (by omega) (by omega)

theorem mark_WF {b : SudokuBoard} {r c : Nat} {v : Int} (hwf : WF b) :
    WF (b.mark_as_known r c v).1 := by
  by_cases hrange : r > 9 ∨ c > 9
  · rw [mark_out_of_range v hrange]; exact hwf
  · by_cases hz : r = 0 ∨ c = 0
    · rw [mark_zero v (by tauto) (by tauto) hz]; exact hwf
    · obtain ⟨b1, hb1, hd⟩ := mark_main (r := r) (c := c) v hwf (by omega)
        (by omega) (by omega) (by omega)
      have hwf1 := idxSet_WF hb1 hwf
      have hpr := markScan_preserves b1 r c v
      rcases hd with ⟨-, heq⟩ | ⟨e, -, heq⟩ <;> rw [heq] <;>
        exact hpr.2.2.1 hwf1

theorem mark_ok_values {b : SudokuBoard} {r c : Nat} {v : Int} (hwf : WF b)
    (hok : (b.mark_as_known r c v).2 = .ok) :
    (b.mark_as_known r c v).1.unknown_values = b.unknown_values - 1 := by
  by_cases hrange : r > 9 ∨ c > 9
  · rw [mark_out_of_range v hrange] at hok; simp at hok
  · by_cases hz : r = 0 ∨ c = 0
    · rw [mark_zero v (by tauto) (by tauto) hz] at hok; simp at hok
    · obtain ⟨b1, hb1, hd⟩ := mark_main (r := r) (c := c) v hwf (by omega)
        (by omega) (by omega) (by omega)
      have hpr := markScan_preserves b1 r c v
      rcases hd with ⟨-, heq⟩ | ⟨e, hf, heq⟩
      · rw [heq]
        have h1 : (markScan b1 r c v).1.unknown_values = b1.unknown_values :=
          hpr.1
        have h2 := idxSet_unknown_values hb1
        simp only
        omega
      · rw [heq] at hok; simp at hok

theorem mark_count {b : SudokuBoard} {r c : Nat} {v : Int} {w : BoxValue}
    (hwf : WF b) (hr1 : 1 ≤ r) (hr9 : r ≤ 9) (hc1 : 1 ≤ c) (hc9 : c ≤ 9)
    (hw : valAt b (r - 1) (c - 1) = some w) :
    unknownCells (b.mark_as_known r c v).1
      + (if isUnknown w then 1 else 0) = unknownCells b := by
  obtain ⟨b1, hb1, hd⟩ := mark_main v hwf hr1 hr9 hc1 hc9
  obtain ⟨n, hn, hnv⟩ := valAt_some hw
  have hcnt := idxSet_count hb1 hn
  rw [hnv] at hcnt
  have hz : (if isUnknown (BoxValue.Known v) then 1 else 0) = 0 := rfl
  rw [hz] at hcnt
  have hpr := markScan_preserves b1 r c v
  rcases hd with ⟨-, heq⟩ | ⟨e, -, heq⟩ <;> rw [heq]
  · have : unknownCells (⟨(markScan b1 r c v).1.board,
        (markScan b1 r c v).1.unknown_values - 1⟩ : SudokuBoard)
        = unknownCells (markScan b1 r c v).1 := rfl
    rw [this, hpr.2.1]
    omega
  · rw [hpr.2.1]
    omega

theorem mark_SetsOk {b : SudokuBoard} {r c : Nat} {v : Int} (hwf : WF b)
    (hs : SetsOk b) (hok : (b.mark_as_known r c v).2 = .ok) :
    SetsOk (b.mark_as_known r c v).1 := by
  by_cases hrange : r > 9 ∨ c > 9
  · rw [mark_out_of_range v hrange] at hok; simp at hok
  · by_cases hz : r = 0 ∨ c = 0
    · rw [mark_zero v (by tauto) (by tauto) hz] at hok; simp at hok
    · obtain ⟨b1, hb1, hd⟩ := mark_main (r := r) (c := c) v hwf (by omega)
        (by omega) (by omega) (by omega)
      have hs1 : SetsOk b1 := idxSet_SetsOk hb1 hs rfl
      rcases hd with ⟨hok1, heq⟩ | ⟨e, hf, heq⟩
      · rw [heq]
        exact markScan_SetsOk hs1 hok1
      · rw [heq] at hok; simp at hok

theorem mark_kinds {b : SudokuBoard} {r c : Nat} (v : Int) (hwf : WF b)
    (hr1 : 1 ≤ r) (hr9 : r ≤ 9) (hc1 : 1 ≤ c) (hc9 : c ≤ 9) :
    (b.mark_as_known r c v).2 = .ok ∨
      (b.mark_as_known r c v).2 = .fail (.err .NotSolvable) := by
  obtain ⟨b1, hb1, hd⟩ := mark_main v hwf hr1 hr9 hc1 hc9
  have hwf1 := idxSet_WF hb1 hwf
  have hkinds := markScan_kinds v hwf1 hr1 hr9 hc1 hc9
  rcases hd with ⟨-, heq⟩ | ⟨e, hf, heq⟩
  · rw [heq]
    exact Or.inl rfl
  · rw [heq]
    rcases hkinds with hk | hk
    · rw [hf] at hk; cases hk
    · rw [hf] at hk
      exact Or.inr hk

theorem mark_ok_of_alive {b : SudokuBoard} {r c : Nat} {v : Int}
    (hwf : WF b) (hr1 : 1 ≤ r) (hr9 : r ≤ 9) (hc1 : 1 ≤ c) (hc9 : c ≤ 9)
    (halive : ∀ i j s, ¬(i = r - 1 ∧ j = c - 1) →
      valAt b i j = some (.Unknown s) →
      s.filter (fun x => x != v) ≠ []) :
    (b.mark_as_known r c v).2 = .ok := by
  obtain ⟨b1, hb1, hd⟩ := mark_main v hwf hr1 hr9 hc1 hc9
  have hwf1 := idxSet_WF hb1 hwf
  have hp1 : FilterAlive v b1 := by
    intro i j s hv
    by_cases hij : i = r - 1 ∧ j = c - 1
    · obtain ⟨hi, hj⟩ := hij
      subst hi; subst hj
      obtain ⟨m, -, hm'⟩ := idxSet_idxNode_self hb1
      unfold valAt at hv
      rw [hm'] at hv
      simp at hv
    · have : valAt b1 i j = valAt b i j := by
        unfold valAt
        rw [idxSet_idxNode_ne hb1 i j (by tauto)]
      rw [this] at hv
      exact halive i j s hij hv
  have hok1 := markScan_ok hwf1 hp1 hr1 hr9 hc1 hc9
  rcases hd with ⟨-, heq⟩ | ⟨e, hf, heq⟩
  · rw [heq]
  · rw [hok1] at hf; cases hf

theorem mark_target {b : SudokuBoard} {r c : Nat} (v : Int) (hwf : WF b)
    (hr1 : 1 ≤ r) (hr9 : r ≤ 9) (hc1 : 1 ≤ c) (hc9 : c ≤ 9) :
    valAt (b.mark_as_known r c v).1 (r - 1) (c - 1) = some (.Known v) := by
  obtain ⟨b1, hb1, hd⟩ := mark_main v hwf hr1 hr9 hc1 hc9
  obtain ⟨m, -, hm'⟩ := idxSet_idxNode_self hb1
  have hb1t : valAt b1 (r - 1) (c - 1) = some (.Known v) := by
    unfold valAt
    rw [hm']
    rfl
  have hev := (markScan_preserves b1 r c v).2.2.2 (r - 1) (c - 1)
  rw [hb1t] at hev
  unfold cellEvol at hev
  rcases hd with ⟨-, heq⟩ | ⟨e, -, heq⟩ <;> rw [heq] <;> exact hev

theorem mark_frame {b : SudokuBoard} {r c : Nat} (v : Int) (hwf : WF b)
    (hr1 : 1 ≤ r) (hr9 : r ≤ 9) (hc1 : 1 ≤ c) (hc9 : c ≤ 9)
    (i j : Nat) (hij : ¬(i = r - 1 ∧ j = c - 1)) :
    cellEvol v (valAt b i j) (valAt (b.mark_as_known r c v).1 i j) := by
  obtain ⟨b1, hb1, hd⟩ := mark_main v hwf hr1 hr9 hc1 hc9
  have hb1f : valAt b1 i j = valAt b i j := by
    unfold valAt
    rw [idxSet_idxNode_ne hb1 i j (by tauto)]
  have hev := (markScan_preserves b1 r c v).2.2.2 i j
  rw [hb1f] at hev
  rcases hd with ⟨-, heq⟩ | ⟨e, -, heq⟩ <;> rw [heq] <;> exact hev

/-! ### Row-major flattening -/

theorem flatten_getElem {α : Type} :
    ∀ (l : List (List α)), (∀ row ∈ l, row.length = 9) →
      ∀ k, l.flatten[k]? = l[k / 9]?.bind (fun row => row[k % 9]?) := by
  intro l
  induction l with
  | nil => intro _ k; simp
  | cons row rest ih =>
    intro hrows k
    have hlen : row.length = 9 := hrows row (by simp)
    have hrest : ∀ r ∈ rest, r.length = 9 := fun r hr => hrows r (by simp [hr])
    simp only [List.flatten_cons]
    by_cases hk : k < 9
    · rw [List.getElem?_append, if_pos (by omega)]
      have h9 : k / 9 = 0 := by omega
      have h9' : k % 9 = k := by omega
      rw [h9, h9']
      simp
    · rw [List.getElem?_append, if_neg (by omega)]
      have h1 : k - row.length = k - 9 := by omega
      rw [h1, ih hrest (k - 9)]
      have h2 : (k - 9) / 9 = k / 9 - 1 := by omega
      have h3 : (k - 9) % 9 = k % 9 := by omega
      have h4 : k / 9 = (k / 9 - 1) + 1 := by omega
      rw [h2, h3, h4]
      simp

theorem wf_rows_len {b : SudokuBoard} (hwf : WF b) :
    ∀ row ∈ b.board, row.length = 9 := by
  intro row hr
  obtain ⟨i, hi⟩ := List.mem_iff_getElem?.mp hr
  have hlt : i < 9 := by
    have := (List.getElem?_eq_some_iff.mp hi).1
    rw [wf_length hwf] at this
    exact this
  obtain ⟨rowL, hrow, hlen⟩ := wf_row hwf hlt
  rw [hi] at hrow
  rw [Option.some.inj hrow]
  exact hlen

theorem wf_flatten_getElem {b : SudokuBoard} (hwf : WF b) (k : Nat) :
    b.board.flatten[k]? = idxNode b (k / 9) (k % 9) :=
  flatten_getElem b.board (wf_rows_len hwf) k

theorem wf_flatten_length {b : SudokuBoard} (hwf : WF b) :
    b.board.flatten.length = 81 := by
  have hmap : b.board.map List.length
      = List.replicate (b.board.map List.length).length 9 := by
    apply List.eq_replicate_of_mem
    intro x hx
    obtain ⟨row, hrow, hx'⟩ := List.mem_map.mp hx
    rw [← hx']
    exact wf_rows_len hwf row hrow
  rw [List.length_flatten, hmap, List.length_map, wf_length hwf,
    List.sum_replicate]
  simp

/-- A row-major `find?` over a well-formed grid returns a node satisfying
the predicate, stored at the position its own coordinate fields address. -/
theorem found_node {b : SudokuBoard} (hwf : WF b) {p : Node → Bool}
    {nv : Node} (h : b.board.flatten.find? p = some nv) :
    p nv = true ∧ 1 ≤ nv.row ∧ nv.row ≤ 9 ∧ 1 ≤ nv.col ∧ nv.col ≤ 9 ∧
      idxNode b (nv.row - 1) (nv.col - 1) = some nv := by
  have hp := List.find?_some h
  have hmem := List.mem_of_find?_eq_some h
  obtain ⟨k, hk⟩ := List.mem_iff_getElem?.mp hmem
  have hklt : k < 81 := by
    have := (List.getElem?_eq_some_iff.mp hk).1
    rw [wf_flatten_length hwf] at this
    exact this
  rw [wf_flatten_getElem hwf k] at hk
  obtain ⟨n, hn, hnr, hnc⟩ := wf_node hwf (i := k / 9) (j := k % 9)
    (by omega) (by omega)
  rw [hn] at hk
  have hnv : n = nv := Option.some.inj hk
  subst hnv
  refine ⟨hp, by omega, by omega, by omega, by omega, ?_⟩
  have hr : n.row - 1 = k / 9 := by omega
  have hc : n.col - 1 = k % 9 := by omega
  rw [hr, hc]
  exact hn

/-! ### `mark_single_option` -/

theorem mso_main {b : SudokuBoard} {r c : Nat} (hwf : WF b)
    (hr1 : 1 ≤ r) (hr9 : r ≤ 9) (hc1 : 1 ≤ c) (hc9 : c ≤ 9) :
    ∃ n, idxNode b (r - 1) (c - 1) = some n ∧
      ((∃ x, n.value = .Known x ∧
         b.mark_single_option r c = (b, .fail (.err .AlreadyKnown))) ∨
       (n.value = .Unknown [] ∧
         b.mark_single_option r c = (b, .fail (.err .NotSolvable))) ∨
       (∃ s, n.value = .Unknown s ∧ s ≠ [] ∧ s.length ≠ 1 ∧
         b.mark_single_option r c = (b, .fail (.err .TooManyOptions))) ∨
       (∃ x, n.value = .Unknown [x] ∧
         b.mark_single_option r c = b.mark_as_known r c x)) := by
  obtain ⟨n, hn, -, -⟩ := wf_node hwf (i := r - 1) (j := c - 1)
    (by omega) (by omega)
  refine ⟨n, hn, ?_⟩
  have hEq : b.mark_single_option r c = (match n.value with
      | .Known _ => (b, .fail (.err .AlreadyKnown))
      | .Unknown s =>
        if s.isEmpty then (b, .fail (.err .NotSolvable))
        else if s.length ≠ 1 then (b, .fail (.err .TooManyOptions))
        else match s.head? with
          | none => (b, .fail .panic)
          | some v => b.mark_as_known r c v) := by
    unfold SudokuBoard.mark_single_option SudokuBoard.getNode
    rw [if_neg (by omega : ¬ r > 9), if_neg (by omega : ¬ c > 9),
      if_neg (by omega : ¬ (r = 0 ∨ c = 0))]
    simp only [hn]
  cases hv : n.value with
  | Known x =>
    exact Or.inl ⟨x, rfl, by rw [hEq, hv]⟩
  | Unknown s =>
    cases s with
    | nil =>
      refine Or.inr (Or.inl ⟨rfl, ?_⟩)
      rw [hEq, hv]
      simp
    | cons a t =>
      cases t with
      | nil =>
        refine Or.inr (Or.inr (Or.inr ⟨a, rfl, ?_⟩))
        rw [hEq, hv]
        simp
      | cons a2 t2 =>
        refine Or.inr (Or.inr (Or.inl ⟨a :: a2 :: t2, rfl, by simp,
          by simp, ?_⟩))
        rw [hEq, hv]
        simp

theorem mso_WF {b : SudokuBoard} {r c : Nat} (hwf : WF b) :
    WF (b.mark_single_option r c).1 := by
  by_cases hrange : r > 9 ∨ c > 9
  · unfold SudokuBoard.mark_single_option
    rcases hrange with h | h
    · rw [if_pos h]; exact hwf
    · by_cases hr : r > 9
      · rw [if_pos hr]; exact hwf
      · rw [if_neg hr, if_pos h]; exact hwf
  · by_cases hz : r = 0 ∨ c = 0
    · unfold SudokuBoard.mark_single_option
      rw [if_neg (by tauto), if_neg (by tauto), if_pos hz]
      exact hwf
    · obtain ⟨n, -, hd⟩ := mso_main (r := r) (c := c) hwf (by omega)
        (by omega) (by omega) (by omega)
      rcases hd with ⟨x, -, heq⟩ | ⟨-, heq⟩ | ⟨s, -, -, -, heq⟩ | ⟨x, -, heq⟩ <;>
        rw [heq]
      · exact hwf
      · exact hwf
      · exact hwf
      · exact mark_WF hwf

/-- A successful forced commit is exactly a successful plain commit of the
single remaining candidate of a single-candidate cell. -/
theorem mso_ok_char {b : SudokuBoard} {r c : Nat} (hwf : WF b)
    (hr1 : 1 ≤ r) (hr9 : r ≤ 9) (hc1 : 1 ≤ c) (hc9 : c ≤ 9)
    (hok : (b.mark_single_option r c).2 = .ok) :
    ∃ x, valAt b (r - 1) (c - 1) = some (.Unknown [x]) ∧
      b.mark_single_option r c = b.mark_as_known r c x ∧
      (b.mark_as_known r c x).2 = .ok := by
  obtain ⟨n, hn, hd⟩ := mso_main (r := r) (c := c) hwf hr1 hr9 hc1 hc9
  rcases hd with ⟨x, -, heq⟩ | ⟨-, heq⟩ | ⟨s, -, -, -, heq⟩ | ⟨x, hv, heq⟩
  · rw [heq] at hok; simp at hok
  · rw [heq] at hok; simp at hok
  · rw [heq] at hok; simp at hok
  · refine ⟨x, ?_, heq, ?_⟩
    · simp [valAt, hn, hv]
    · rw [← heq]
      exact hok

theorem mso_kinds {b : SudokuBoard} {r c : Nat} (hwf : WF b)
    (hr1 : 1 ≤ r) (hr9 : r ≤ 9) (hc1 : 1 ≤ c) (hc9 : c ≤ 9) :
    (b.mark_single_option r c).2 = .ok ∨
      ∃ e, (b.mark_single_option r c).2 = .fail (.err e) := by
  obtain ⟨n, -, hd⟩ := mso_main (r := r) (c := c) hwf hr1 hr9 hc1 hc9
  rcases hd with ⟨x, -, heq⟩ | ⟨-, heq⟩ | ⟨s, -, -, -, heq⟩ | ⟨x, -, heq⟩ <;>
    rw [heq]
  · exact Or.inr ⟨_, rfl⟩
  · exact Or.inr ⟨_, rfl⟩
  · exact Or.inr ⟨_, rfl⟩
  · rcases mark_kinds x hwf hr1 hr9 hc1 hc9 with hk | hk
    · exact Or.inl hk
    · exact Or.inr ⟨_, hk⟩

/-! ### The solver: branch-site analysis -/

theorem unknownCells_eq_countP (b : SudokuBoard) :
    unknownCells b = b.board.flatten.countP (fun n => isUnknown n.value) := by
  unfold unknownCells
  rw [List.countP_flatten]

theorem SetsOk_mem {b : SudokuBoard} (hs : SetsOk b) {n : Node}
    (hn : n ∈ b.board.flatten) : cellOkB n.value = true := by
  obtain ⟨row, hrow, hmem⟩ := List.mem_flatten.mp hn
  unfold SetsOk SetsOkB at hs
  exact List.all_eq_true.mp (List.all_eq_true.mp hs row hrow) n hmem

theorem wf_valAt_mem {b : SudokuBoard} (hwf : WF b) {i j : Nat} {n : Node}
    (hij : i < 9 ∧ j < 9) (hn : idxNode b i j = some n) :
    n ∈ b.board.flatten := by
  have hk := wf_flatten_getElem hwf (9 * i + j)
  have h1 : (9 * i + j) / 9 = i := by omega
  have h2 : (9 * i + j) % 9 = j := by omega
  rw [h1, h2, hn] at hk
  exact List.getElem?_mem hk

theorem valAt_lt {b : SudokuBoard} (hwf : WF b) {i j : Nat} {w : BoxValue}
    (h : valAt b i j = some w) : i < 9 ∧ j < 9 := by
  obtain ⟨n, hn, -⟩ := valAt_some h
  unfold idxNode at hn
  cases hrow : b.board[i]? with
  | none => rw [hrow] at hn; simp at hn
  | some rowL =>
    have hi : i < b.board.length := (List.getElem?_eq_some_iff.mp hrow).1
    rw [hrow] at hn
    simp only [Option.some_bind] at hn
    have hj : j < rowL.length := (List.getElem?_eq_some_iff.mp hn).1
    have := wf_rows_len hwf rowL (List.getElem?_mem hrow)
    rw [wf_length hwf] at hi
    omega

/-- When no forced move exists and all candidate sets are healthy, every
unknown cell has at least two candidates. -/
theorem no_single_min2 {b : SudokuBoard} (hwf : WF b) (hs : SetsOk b)
    (hns : findSingle b = none) {i j : Nat} {s : List Int}
    (hv : valAt b i j = some (.Unknown s)) : 2 ≤ s.length := by
  obtain ⟨n, hn, hnv⟩ := valAt_some hv
  have hmem := wf_valAt_mem hwf (valAt_lt hwf hv) hn
  have hok := SetsOk_mem hs hmem
  rw [hnv] at hok
  unfold cellOkB at hok
  simp only [Bool.and_eq_true] at hok
  have hne : s ≠ [] := by
    intro hcon
    rw [hcon] at hok
    simp at hok
  unfold findSingle at hns
  have hno := List.find?_eq_none.mp hns n hmem
  rw [hnv] at hno
  simp only [beq_iff_eq] at hno
  have hlen : s.length ≠ 1 := by simpa using hno
  have : s.length ≠ 0 := fun hcon => hne (List.length_eq_zero.mp hcon)
  omega

/-- Unknown cells with healthy sets contribute positive entries to
`altLens`; with at least one unknown cell the list is non-empty. -/
theorem altLens_ne_nil {b : SudokuBoard} (hs : SetsOk b)
    (hpos : 0 < unknownCells b) : altLens b ≠ [] := by
  rw [unknownCells_eq_countP] at hpos
  obtain ⟨n, hmem, hun⟩ := List.countP_pos_iff.mp hpos
  cases hv : n.value with
  | Known x => rw [hv] at hun; simp [isUnknown] at hun
  | Unknown s =>
    have hok := SetsOk_mem hs hmem
    rw [hv] at hok
    unfold cellOkB at hok
    simp only [Bool.and_eq_true] at hok
    have hne : s ≠ [] := by
      intro hcon
      rw [hcon] at hok
      simp at hok
    intro hcon
    unfold altLens at hcon
    have : s.length ∈ ([] : List Nat) := by
      rw [← hcon]
      refine List.mem_filter.mpr ⟨?_, by
        simp [List.length_pos.mpr hne]⟩
      refine List.mem_map.mpr ⟨n, hmem, ?_⟩
      rw [hv]
    simp at this

theorem min?_mem_nat {l : List Nat} {m : Nat} (h : l.min? = some m) :
    m ∈ l :=
  List.min?_mem (fun a b => by rw [Nat.min_def]; split <;> simp) h

theorem altLens_mem {b : SudokuBoard} {m : Nat} (h : m ∈ altLens b) :
    0 < m ∧ ∃ n ∈ b.board.flatten, ∃ s, n.value = .Unknown s ∧
      s.length = m := by
  unfold altLens at h
  obtain ⟨hmem, hpos⟩ := List.mem_filter.mp h
  obtain ⟨n, hn, hfn⟩ := List.mem_map.mp hmem
  refine ⟨by simpa using hpos, n, hn, ?_⟩
  cases hv : n.value with
  | Known x =>
    rw [hv] at hfn
    simp only at hfn
    rw [← hfn] at hpos
    simp at hpos
  | Unknown s =>
    rw [hv] at hfn
    exact ⟨s, rfl, hfn⟩

theorem findAlt_isSome {b : SudokuBoard} {m : Nat} (h : m ∈ altLens b) :
    ∃ nv, findAlt b m = some nv := by
  obtain ⟨-, n, hmem, s, hv, hlen⟩ := altLens_mem h
  unfold findAlt
  cases hf : b.board.flatten.find? (fun n =>
      match n.value with
      | .Unknown s => s.length == m
      | _ => false) with
  | none =>
    have := List.find?_eq_none.mp hf n hmem
    rw [hv] at this
    simp only [beq_iff_eq] at this
    exact absurd hlen this
  | some nv => exact ⟨nv, rfl⟩

theorem findAlt_spec {b : SudokuBoard} (hwf : WF b) {m : Nat} {nv : Node}
    (h : findAlt b m = some nv) :
    1 ≤ nv.row ∧ nv.row ≤ 9 ∧ 1 ≤ nv.col ∧ nv.col ≤ 9 ∧
      idxNode b (nv.row - 1) (nv.col - 1) = some nv ∧
      ∃ s, nv.value = .Unknown s ∧ s.length = m := by
  obtain ⟨hp, h1, h2, h3, h4, h5⟩ := found_node hwf h
  refine ⟨h1, h2, h3, h4, h5, ?_⟩
  cases hv : nv.value with
  | Known x => rw [hv] at hp; simp at hp
  | Unknown s =>
    rw [hv] at hp
    simp only [beq_iff_eq] at hp
    exact ⟨s, rfl, hp⟩

theorem findSingle_spec {b : SudokuBoard} (hwf : WF b) {nv : Node}
    (h : findSingle b = some nv) :
    1 ≤ nv.row ∧ nv.row ≤ 9 ∧ 1 ≤ nv.col ∧ nv.col ≤ 9 ∧
      idxNode b (nv.row - 1) (nv.col - 1) = some nv ∧
      ∃ s, nv.value = .Unknown s ∧ s.length = 1 := by
  obtain ⟨hp, h1, h2, h3, h4, h5⟩ := found_node hwf h
  refine ⟨h1, h2, h3, h4, h5, ?_⟩
  cases hv : nv.value with
  | Known x => rw [hv] at hp; simp at hp
  | Unknown s =>
    rw [hv] at hp
    simp only [beq_iff_eq] at hp
    exact ⟨s, rfl, hp⟩

/-- At a branch point (well-formed board, healthy sets, no forced move) the
speculative commit of any value to an unknown cell always succeeds: every
unknown cell has at least two candidates, so removing one value cannot
empty any set. -/
theorem branch_mark {b : SudokuBoard} (hwf : WF b) (hs : SetsOk b)
    (hns : findSingle b = none) {r c : Nat} {alt_set : List Int}
    (hr1 : 1 ≤ r) (hr9 : r ≤ 9) (hc1 : 1 ≤ c) (hc9 : c ≤ 9)
    (hval : valAt b (r - 1) (c - 1) = some (.Unknown alt_set)) (v : Int) :
    (b.mark_as_known r c v).2 = .ok ∧
      WF (b.mark_as_known r c v).1 ∧
      SetsOk (b.mark_as_known r c v).1 ∧
      unknownCells (b.mark_as_known r c v).1 + 1 = unknownCells b ∧
      (b.mark_as_known r c v).1.unknown_values = b.unknown_values - 1 := by
  have halive : ∀ i j s, ¬(i = r - 1 ∧ j = c - 1) →
      valAt b i j = some (.Unknown s) →
      s.filter (fun x => x != v) ≠ [] := by
    intro i j s hij hv
    have hlen := no_single_min2 hwf hs hns hv
    have hok := SetsOk_at hs hv
    unfold cellOkB at hok
    simp only [Bool.and_eq_true] at hok
    have hnd := ascB_nodup s hok.1
    have hfl := length_filter_bne s v hnd
    intro hcon
    rw [hcon] at hfl
    simp at hfl
    omega
  have hok := mark_ok_of_alive hwf hr1 hr9 hc1 hc9 halive
  have hcount := mark_count (v := v) hwf hr1 hr9 hc1 hc9 hval
  have hone : (if isUnknown (BoxValue.Unknown alt_set) then 1 else 0) = 1 := rfl
  rw [hone] at hcount
  exact ⟨hok, mark_WF hwf, mark_SetsOk hwf hs hok, hcount,
    mark_ok_values hwf hok⟩

/-! ### Characterizations of one solver step -/

theorem solveStep_done (prev : SudokuBoard → SudokuBoard × SudokuResult)
    (b : SudokuBoard) (h : ¬ b.unknown_values > 0) :
    solveStep prev b = (b, .ok) := by
  unfold solveStep
  rw [if_neg h]

theorem solveStep_found (prev : SudokuBoard → SudokuBoard × SudokuResult)
    {b : SudokuBoard} (hpos : b.unknown_values > 0) {nv : Node}
    (hfs : findSingle b = some nv) :
    solveStep prev b = andThen (b.mark_single_option nv.row nv.col) prev := by
  unfold solveStep
  rw [if_pos hpos]
  simp only [hfs]

theorem solveStep_minNone (prev : SudokuBoard → SudokuBoard × SudokuResult)
    {b : SudokuBoard} (hpos : b.unknown_values > 0)
    (hfs : findSingle b = none) (hmin : (altLens b).min? = none) :
    solveStep prev b = (b, .fail .panic) := by
  unfold solveStep
  rw [if_pos hpos]
  simp only [hfs, hmin]

theorem solveStep_faNone (prev : SudokuBoard → SudokuBoard × SudokuResult)
    {b : SudokuBoard} (hpos : b.unknown_values > 0)
    (hfs : findSingle b = none) {m : Nat}
    (hmin : (altLens b).min? = some m) (hfa : findAlt b m = none) :
    solveStep prev b = (b, .fail (.err .Unknown)) := by
  unfold solveStep
  rw [if_pos hpos]
  simp only [hfs, hmin, hfa]

theorem solveStep_faKnown (prev : SudokuBoard → SudokuBoard × SudokuResult)
    {b : SudokuBoard} (hpos : b.unknown_values > 0)
    (hfs : findSingle b = none) {m : Nat}
    (hmin : (altLens b).min? = some m) {nv : Node} {x : Int}
    (hfa : findAlt b m = some nv) (hv : nv.value = .Known x) :
    solveStep prev b = (b, .fail (.err .Unknown)) := by
  unfold solveStep
  rw [if_pos hpos]
  simp only [hfs, hmin, hfa, hv]

theorem solveStep_branch (prev : SudokuBoard → SudokuBoard × SudokuResult)
    {b : SudokuBoard} (hpos : b.unknown_values > 0)
    (hfs : findSingle b = none) {m : Nat}
    (hmin : (altLens b).min? = some m) {nv : Node} {alt_set : List Int}
    (hfa : findAlt b m = some nv) (hv : nv.value = .Unknown alt_set) :
    solveStep prev b = tryAlts prev b nv.row nv.col alt_set := by
  unfold solveStep
  rw [if_pos hpos]
  simp only [hfs, hmin, hfa, hv]

/-! ### Termination: the fuel is never exhausted on well-formed boards -/

theorem tryAlts_no_fuelOut {f : SudokuBoard → SudokuBoard × SudokuResult}
    {b : SudokuBoard} {r c : Nat}
    (hf : ∀ v : Int, (f ((b.mark_as_known r c v).1)).2 ≠ .fail .fuelOut) :
    ∀ alts, (tryAlts f b r c alts).2 ≠ .fail .fuelOut := by
  intro alts
  induction alts with
  | nil => simp [tryAlts]
  | cons v rest ih =>
    unfold tryAlts
    rcases hres : f ((b.mark_as_known r c v).1) with ⟨alt1, res⟩
    cases res with
    | ok => simp [hres]
    | fail e =>
      cases e with
      | err e' => simpa [hres] using ih
      | panic => simp [hres]
      | fuelOut => exact absurd (by rw [hres]) (hf v)

theorem solveFuel_no_fuelOut :
    ∀ fuel (b : SudokuBoard), WF b → unknownCells b < fuel →
      (solveFuel fuel b).2 ≠ .fail .fuelOut := by
  intro fuel
  induction fuel with
  | zero => intro b _ h; omega
  | succ n ih =>
    intro b hwf hcnt
    rw [solveFuel_succ]
    by_cases hpos : b.unknown_values > 0
    · cases hfs : findSingle b with
      | some nv =>
        rw [solveStep_found _ hpos hfs]
        obtain ⟨h1, h2, h3, h4, hidx, s, hvs, hlen1⟩ := findSingle_spec hwf hfs
        rcases andThen_cases (b.mark_single_option nv.row nv.col)
          (solveFuel n) with ⟨hok, heq⟩ | ⟨e, hfail, heq⟩
        · rw [heq]
          obtain ⟨x, hval, hmso_eq, hmark_ok⟩ := mso_ok_char hwf h1 h2 h3 h4 hok
          have hwf1 : WF (b.mark_single_option nv.row nv.col).1 := mso_WF hwf
          have hcnt1 : unknownCells (b.mark_single_option nv.row nv.col).1
              < n := by
            have hc := mark_count (v := x) hwf h1 h2 h3 h4 hval
            have hone : (if isUnknown (BoxValue.Unknown [x]) then 1 else 0)
                = 1 := rfl
            rw [hone] at hc
            rw [hmso_eq]
            omega
          exact ih _ hwf1 hcnt1
        · rw [heq]
          rcases mso_kinds hwf h1 h2 h3 h4 with hk | ⟨e', hk⟩
          · rw [hfail] at hk; cases hk
          · rw [hfail] at hk
            intro hcon
            have h5 : SudokuResult.fail e = .fail .fuelOut := hcon
            have h6 := hk.symm.trans h5
            simp at h6
      | none =>
        cases hmin : (altLens b).min? with
        | none => rw [solveStep_minNone _ hpos hfs hmin]; simp
        | some m =>
          cases hfa : findAlt b m with
          | none => rw [solveStep_faNone _ hpos hfs hmin hfa]; simp
          | some nv =>
            cases hv : nv.value with
            | Known x => rw [solveStep_faKnown _ hpos hfs hmin hfa hv]; simp
            | Unknown alt_set =>
              rw [solveStep_branch _ hpos hfs hmin hfa hv]
              obtain ⟨hr1, hr9, hc1, hc9, hidx, s, hvs, hlen⟩ :=
                findAlt_spec hwf hfa
              have hset : valAt b (nv.row - 1) (nv.col - 1)
                  = some (.Unknown alt_set) := by
                simp [valAt, hidx, hv]
              refine tryAlts_no_fuelOut (fun v => ?_) alt_set
              have hwa : WF (b.mark_as_known nv.row nv.col v).1 := mark_WF hwf
              have hca := mark_count (v := v) hwf hr1 hr9 hc1 hc9 hset
              have hone : (if isUnknown (BoxValue.Unknown alt_set) then 1
                  else 0) = 1 := rfl
              rw [hone] at hca
              exact ih _ hwa (by omega)
    · rw [solveStep_done _ _ hpos]; simp

/-! ### The solver preserves the consistency invariant -/

theorem forced_Inv {b : SudokuBoard} (hinv : Inv b) {nv : Node}
    (hfs : findSingle b = some nv)
    (hok : (b.mark_single_option nv.row nv.col).2 = .ok) :
    Inv (b.mark_single_option nv.row nv.col).1 ∧
      unknownCells (b.mark_single_option nv.row nv.col).1 + 1
        = unknownCells b := by
  obtain ⟨hwf, hs, hcnt⟩ := hinv
  obtain ⟨h1, h2, h3, h4, hidx, s, hvs, hlen1⟩ := findSingle_spec hwf hfs
  obtain ⟨x, hval, hmso_eq, hmark_ok⟩ := mso_ok_char hwf h1 h2 h3 h4 hok
  have hc := mark_count (v := x) hwf h1 h2 h3 h4 hval
  have hone : (if isUnknown (BoxValue.Unknown [x]) then 1 else 0) = 1 := rfl
  rw [hone] at hc
  have hv := mark_ok_values hwf hmark_ok
  rw [hmso_eq]
  refine ⟨⟨mark_WF hwf, mark_SetsOk hwf hs hmark_ok, ?_⟩, by omega⟩
  rw [hv, hcnt]
  omega

theorem branch_Inv {b : SudokuBoard} (hinv : Inv b)
    (hns : findSingle b = none) {r c : Nat} {alt_set : List Int}
    (hr1 : 1 ≤ r) (hr9 : r ≤ 9) (hc1 : 1 ≤ c) (hc9 : c ≤ 9)
    (hval : valAt b (r - 1) (c - 1) = some (.Unknown alt_set)) (v : Int) :
    (b.mark_as_known r c v).2 = .ok ∧
      Inv ((b.mark_as_known r c v).1) ∧
      unknownCells (b.mark_as_known r c v).1 + 1 = unknownCells b := by
  obtain ⟨hwf, hs, hcnt⟩ := hinv
  obtain ⟨hok, hwf', hs', hc, hv⟩ :=
    branch_mark hwf hs hns hr1 hr9 hc1 hc9 hval v
  refine ⟨hok, ⟨hwf', hs', ?_⟩, hc⟩
  rw [hv, hcnt]
  omega

theorem tryAlts_ok_Inv {f : SudokuBoard → SudokuBoard × SudokuResult}
    {b : SudokuBoard} {r c : Nat}
    (hf : ∀ v : Int, (f ((b.mark_as_known r c v).1)).2 = .ok →
      Inv ((f ((b.mark_as_known r c v).1)).1)) :
    ∀ alts, (tryAlts f b r c alts).2 = .ok →
      Inv (tryAlts f b r c alts).1 := by
  intro alts
  induction alts with
  | nil => intro hok; simp [tryAlts] at hok
  | cons v rest ih =>
    intro hok
    unfold tryAlts at hok ⊢
    rcases hres : f ((b.mark_as_known r c v).1) with ⟨alt1, res⟩
    cases res with
    | ok =>
      have hinv1 := hf v (by rw [hres])
      rw [hres] at hinv1
      simp only [hres]
      exact hinv1
    | fail e =>
      cases e with
      | err e' =>
        simp only [hres] at hok ⊢
        exact ih hok
      | panic => simp [hres] at hok
      | fuelOut => simp [hres] at hok

theorem solveFuel_ok_Inv :
    ∀ fuel (b : SudokuBoard), Inv b → (solveFuel fuel b).2 = .ok →
      Inv (solveFuel fuel b).1 := by
  intro fuel
  induction fuel with
  | zero => intro b _ hok; rw [solveFuel_zero] at hok; cases hok
  | succ n ih =>
    intro b hinv hok
    rw [solveFuel_succ] at hok ⊢
    by_cases hpos : b.unknown_values > 0
    · cases hfs : findSingle b with
      | some nv =>
        rw [solveStep_found _ hpos hfs] at hok ⊢
        rcases andThen_cases (b.mark_single_option nv.row nv.col)
          (solveFuel n) with ⟨hmok, heq⟩ | ⟨e, hfail, heq⟩
        · rw [heq] at hok ⊢
          exact ih _ (forced_Inv hinv hfs hmok).1 hok
        · rw [heq] at hok
          simp at hok
      | none =>
        cases hmin : (altLens b).min? with
        | none =>
          rw [solveStep_minNone _ hpos hfs hmin] at hok
          simp at hok
        | some m =>
          cases hfa : findAlt b m with
          | none =>
            rw [solveStep_faNone _ hpos hfs hmin hfa] at hok
            simp at hok
          | some nv =>
            cases hv : nv.value with
            | Known x =>
              rw [solveStep_faKnown _ hpos hfs hmin hfa hv] at hok
              simp at hok
            | Unknown alt_set =>
              rw [solveStep_branch _ hpos hfs hmin hfa hv] at hok ⊢
              obtain ⟨hr1, hr9, hc1, hc9, hidx, s, hvs, hlen⟩ :=
                findAlt_spec hinv.1 hfa
              have hset : valAt b (nv.row - 1) (nv.col - 1)
                  = some (.Unknown alt_set) := by
                simp [valAt, hidx, hv]
              refine tryAlts_ok_Inv (fun v hvok => ?_) alt_set hok
              have hbm := branch_Inv hinv hfs hr1 hr9 hc1 hc9 hset v
              exact ih _ hbm.2.1 hvok
    · rw [solveStep_done _ _ hpos] at hok ⊢
      exact hinv

/-! ### The solver's outcome is success or a returned error -/

theorem tryAlts_kinds {f : SudokuBoard → SudokuBoard × SudokuResult}
    {b : SudokuBoard} {r c : Nat}
    (hf : ∀ v : Int, (f ((b.mark_as_known r c v).1)).2 = .ok ∨
      ∃ e, (f ((b.mark_as_known r c v).1)).2 = .fail (.err e)) :
    ∀ alts, (tryAlts f b r c alts).2 = .ok ∨
      ∃ e, (tryAlts f b r c alts).2 = .fail (.err e) := by
  intro alts
  induction alts with
  | nil => exact Or.inr ⟨_, rfl⟩
  | cons v rest ih =>
    unfold tryAlts
    rcases hres : f ((b.mark_as_known r c v).1) with ⟨alt1, res⟩
    cases res with
    | ok => simp [hres]
    | fail e =>
      cases e with
      | err e' => simpa [hres] using ih
      | panic =>
        rcases hf v with hk | ⟨e2, hk⟩ <;> rw [hres] at hk <;> simp at hk
      | fuelOut =>
        rcases hf v with hk | ⟨e2, hk⟩ <;> rw [hres] at hk <;> simp at hk

theorem solveFuel_kinds :
    ∀ fuel (b : SudokuBoard), Inv b → unknownCells b < fuel →
      (solveFuel fuel b).2 = .ok ∨
        ∃ e, (solveFuel fuel b).2 = .fail (.err e) := by
  intro fuel
  induction fuel with
  | zero => intro b _ h; omega
  | succ n ih =>
    intro b hinv hcnt
    rw [solveFuel_succ]
    by_cases hpos : b.unknown_values > 0
    · cases hfs : findSingle b with
      | some nv =>
        rw [solveStep_found _ hpos hfs]
        obtain ⟨h1, h2, h3, h4, hidx, s, hvs, hlen1⟩ :=
          findSingle_spec hinv.1 hfs
        rcases andThen_cases (b.mark_single_option nv.row nv.col)
          (solveFuel n) with ⟨hmok, heq⟩ | ⟨e, hfail, heq⟩
        · rw [heq]
          obtain ⟨hinv1, hdec⟩ := forced_Inv hinv hfs hmok
          exact ih _ hinv1 (by omega)
        · rw [heq]
          rcases mso_kinds hinv.1 h1 h2 h3 h4 with hk | ⟨e', hk⟩
          · rw [hfail] at hk; cases hk
          · rw [hfail] at hk
            exact Or.inr ⟨e', hk⟩
      | none =>
        cases hmin : (altLens b).min? with
        | none =>
          exfalso
          have hc0 : 0 < unknownCells b := by
            have := hinv.2.2
            omega
          exact altLens_ne_nil hinv.2.1 hc0 (List.min?_eq_none_iff.mp hmin)
        | some m =>
          cases hfa : findAlt b m with
          | none =>
            rw [solveStep_faNone _ hpos hfs hmin hfa]
            exact Or.inr ⟨_, rfl⟩
          | some nv =>
            cases hv : nv.value with
            | Known x =>
              rw [solveStep_faKnown _ hpos hfs hmin hfa hv]
              exact Or.inr ⟨_, rfl⟩
            | Unknown alt_set =>
              rw [solveStep_branch _ hpos hfs hmin hfa hv]
              obtain ⟨hr1, hr9, hc1, hc9, hidx, s, hvs, hlen⟩ :=
                findAlt_spec hinv.1 hfa
              have hset : valAt b (nv.row - 1) (nv.col - 1)
                  = some (.Unknown alt_set) := by
                simp [valAt, hidx, hv]
              refine tryAlts_kinds (fun v => ?_) alt_set
              have hbm := branch_Inv hinv hfs hr1 hr9 hc1 hc9 hset v
              exact ih _ hbm.2.1 (by omega)
    · rw [solveStep_done _ _ hpos]
      exact Or.inl rfl

/-! ### Filling a board from text -/

theorem rendKeep_refl (w : Option BoxValue) : rendKeep w w := by
  unfold rendKeep
  rcases w with - | w
  · rfl
  · cases w
    · rfl
    · exact ⟨_, rfl⟩

theorem rendKeep_trans {w w' w'' : Option BoxValue}
    (h1 : rendKeep w w') (h2 : rendKeep w' w'') : rendKeep w w'' := by
  unfold rendKeep at *
  rcases w with - | w
  · subst h1; exact h2
  · cases w with
    | Known x => subst h1; exact h2
    | Unknown s =>
      obtain ⟨s', hs'⟩ := h1
      rw [hs'] at h2
      exact h2

theorem cellEvol_rendKeep {kv : Int} {w w' : Option BoxValue}
    (h : cellEvol kv w w') : rendKeep w w' := by
  unfold cellEvol at h
  unfold rendKeep
  rcases w with - | w
  · exact h
  · cases w with
    | Known x => exact h
    | Unknown s =>
      rcases h with h | h
      · exact ⟨_, h⟩
      · exact ⟨_, h⟩

theorem pos_ne_of_idx_ne {k i : Nat} (_hk : k < 81) (_hi : i < 81)
    (hne : k ≠ i) : ¬(k / 9 = i / 9 ∧ k % 9 = i % 9) := by
  rintro ⟨h1, h2⟩
  omega

/-- The effect of `fill_board`'s loop on the grid, processing the filtered
character list `cs` from flattened position `i`: digits become known values
at their positions, every other cell keeps its rendering. -/
theorem fillGo_chars :
    ∀ (cs : List Char) (i : Nat) (b b' : SudokuBoard), WF b →
      i + cs.length ≤ 81 → fillGo i b cs = .ok b' →
      WF b' ∧
      (∀ k, k < 81 → (k < i ∨ i + cs.length ≤ k) →
        rendKeep (valAt b (k / 9) (k % 9)) (valAt b' (k / 9) (k % 9))) ∧
      (∀ d c, cs[d]? = some c →
        (∀ kv, i32_from_char c = some kv →
          valAt b' ((i + d) / 9) ((i + d) % 9) = some (.Known kv)) ∧
        (i32_from_char c = none →
          rendKeep (valAt b ((i + d) / 9) ((i + d) % 9))
            (valAt b' ((i + d) / 9) ((i + d) % 9)))) := by
  intro cs
  induction cs with
  | nil =>
    intro i b b' hwf hlen hfill
    unfold fillGo at hfill
    simp only [FillResult.ok.injEq] at hfill
    subst hfill
    refine ⟨hwf, fun k _ _ => rendKeep_refl _, fun d c hd => ?_⟩
    simp at hd
  | cons c0 rest ih =>
    intro i b b' hwf hlen hfill
    have hlen' : i + rest.length + 1 ≤ 81 := by simp at hlen; omega
    unfold fillGo at hfill
    cases hc0 : i32_from_char c0 with
    | none =>
      simp only [hc0] at hfill
      obtain ⟨hwf', hA, hB⟩ := ih (i + 1) b b' hwf (by omega) hfill
      refine ⟨hwf', ?_, ?_⟩
      · intro k hk hrange
        refine hA k hk ?_
        rw [List.length_cons] at hrange
        omega
      · intro d c hd
        cases d with
        | zero =>
          simp only [List.getElem?_cons_zero, Option.some.injEq] at hd
          subst hd
          refine ⟨fun kv hkv => absurd hkv (by rw [hc0]; simp), fun _ => ?_⟩
          have := hA i (by omega) (by omega)
          simpa using this
        | succ d' =>
          simp only [List.getElem?_cons_succ] at hd
          have := hB d' c hd
          have harith : i + 1 + d' = i + (d' + 1) := by omega
          rw [harith] at this
          exact this
    | some kv =>
      simp only [hc0] at hfill
      rcases hmark : b.mark_as_known (i / 9 + 1) (i % 9 + 1) kv with ⟨b1, res⟩
      simp only [hmark] at hfill
      cases res with
      | fail e => simp at hfill
      | ok =>
        have hi81 : i ≤ 80 := by omega
        have hr1 : 1 ≤ i / 9 + 1 := by omega
        have hr9 : i / 9 + 1 ≤ 9 := by omega
        have hcc1 : 1 ≤ i % 9 + 1 := by omega
        have hcc9 : i % 9 + 1 ≤ 9 := by omega
        have hb1 : b1 = (b.mark_as_known (i / 9 + 1) (i % 9 + 1) kv).1 := by
          rw [hmark]
        have hwf1 : WF b1 := by rw [hb1]; exact mark_WF hwf
        obtain ⟨hwf', hA, hB⟩ := ih (i + 1) b1 b' hwf1 (by omega) hfill
        have htar : valAt b1 (i / 9) (i % 9) = some (.Known kv) := by
          rw [hb1]
          have := mark_target kv hwf hr1 hr9 hcc1 hcc9
          simpa using this
        have hframe : ∀ k, k < 81 → k ≠ i →
            rendKeep (valAt b (k / 9) (k % 9)) (valAt b1 (k / 9) (k % 9)) := by
          intro k hk hne
          have hij : ¬(k / 9 = i / 9 + 1 - 1 ∧ k % 9 = i % 9 + 1 - 1) := by
            simpa using pos_ne_of_idx_ne hk (by omega) hne
          have hcf := mark_frame kv hwf hr1 hr9 hcc1 hcc9 (k / 9) (k % 9) hij
          simp only [Nat.add_sub_cancel] at hcf
          rw [hb1]
          exact cellEvol_rendKeep hcf
        refine ⟨hwf', ?_, ?_⟩
        · intro k hk hrange
          rw [List.length_cons] at hrange
          exact rendKeep_trans (hframe k hk (by omega)) (hA k hk (by omega))
        · intro d c hd
          cases d with
          | zero =>
            simp only [List.getElem?_cons_zero, Option.some.injEq] at hd
            subst hd
            refine ⟨fun kv' hkv' => ?_, fun hnone => ?_⟩
            · rw [hc0] at hkv'
              have hkveq : kv' = kv := (Option.some.inj hkv').symm
              subst hkveq
              have hAi := hA i (by omega) (by omega)
              have h0 : i + 0 = i := by omega
              rw [h0]
              rw [htar] at hAi
              exact hAi
            · rw [hc0] at hnone; cases hnone
          | succ d' =>
            simp only [List.getElem?_cons_succ] at hd
            obtain ⟨hBd1, hBd2⟩ := hB d' c hd
            have harith : i + 1 + d' = i + (d' + 1) := by omega
            rw [harith] at hBd1 hBd2
            refine ⟨hBd1, fun hnone => ?_⟩
            refine rendKeep_trans (hframe (i + (d' + 1)) ?_ (by omega))
              (hBd2 hnone)
            have := (List.getElem?_eq_some_iff.mp hd).1
            omega

/-- The fill loop either succeeds or fails with `NotSolvable` when at most
81 grid positions are consumed: the commits are in range, so no other error
and no panic can arise. -/
theorem fillGo_kinds :
    ∀ (cs : List Char) (i : Nat) (b : SudokuBoard), WF b →
      i + cs.length ≤ 81 →
      (∃ b', fillGo i b cs = .ok b') ∨
        fillGo i b cs = .fail (.err .NotSolvable) := by
  intro cs
  induction cs with
  | nil => intro i b _ _; exact Or.inl ⟨b, rfl⟩
  | cons c0 rest ih =>
    intro i b hwf hlen
    have hlen' : i + rest.length + 1 ≤ 81 := by simp at hlen; omega
    unfold fillGo
    cases hc0 : i32_from_char c0 with
    | none => exact ih (i + 1) b hwf (by omega)
    | some kv =>
      rcases hmark : b.mark_as_known (i / 9 + 1) (i % 9 + 1) kv with ⟨b1, res⟩
      have hkinds := mark_kinds (r := i / 9 + 1) (c := i % 9 + 1) kv hwf
        (by omega) (by omega) (by omega) (by omega)
      rw [hmark] at hkinds
      cases res with
      | ok =>
        have hwf1 : WF b1 := by
          have := mark_WF (r := i / 9 + 1) (c := i % 9 + 1) (v := kv) hwf
          rw [hmark] at this
          exact this
        simp only [hmark]
        exact ih (i + 1) b1 hwf1 (by omega)
      | fail e =>
        simp only [hmark]
        rcases hkinds with hk | hk
        · simp at hk
        · have h2 : SudokuResult.fail e
              = SudokuResult.fail (.err .NotSolvable) := hk
          injection h2 with h3
          rw [h3]
          exact Or.inr rfl

/-- The fill loop keeps the consistency invariant, provided the positions
still to be filled are all in candidate state. -/
theorem fillGo_Inv :
    ∀ (cs : List Char) (i : Nat) (b b' : SudokuBoard), Inv b →
      i + cs.length ≤ 81 →
      (∀ k, i ≤ k → k < 81 →
        ∃ s, valAt b (k / 9) (k % 9) = some (.Unknown s)) →
      fillGo i b cs = .ok b' → Inv b' := by
  intro cs
  induction cs with
  | nil =>
    intro i b b' hinv _ _ hfill
    unfold fillGo at hfill
    simp only [FillResult.ok.injEq] at hfill
    subst hfill
    exact hinv
  | cons c0 rest ih =>
    intro i b b' hinv hlen hstat hfill
    have hlen' : i + rest.length + 1 ≤ 81 := by simp at hlen; omega
    unfold fillGo at hfill
    cases hc0 : i32_from_char c0 with
    | none =>
      simp only [hc0] at hfill
      refine ih (i + 1) b b' hinv (by omega) (fun k hk1 hk2 => ?_) hfill
      exact hstat k (by omega) hk2
    | some kv =>
      simp only [hc0] at hfill
      rcases hmark : b.mark_as_known (i / 9 + 1) (i % 9 + 1) kv with ⟨b1, res⟩
      simp only [hmark] at hfill
      cases res with
      | fail e => simp at hfill
      | ok =>
        obtain ⟨hwf, hs, hcnt⟩ := hinv
        obtain ⟨s0, hs0⟩ := hstat i (by omega) (by omega)
        have hr1 : 1 ≤ i / 9 + 1 := by omega
        have hr9 : i / 9 + 1 ≤ 9 := by omega
        have hcc1 : 1 ≤ i % 9 + 1 := by omega
        have hcc9 : i % 9 + 1 ≤ 9 := by omega
        have hs0' : valAt b (i / 9 + 1 - 1) (i % 9 + 1 - 1)
            = some (.Unknown s0) := by
          simpa using hs0
        have hmok : (b.mark_as_known (i / 9 + 1) (i % 9 + 1) kv).2 = .ok := by
          rw [hmark]
        have hc := mark_count (v := kv) hwf hr1 hr9 hcc1 hcc9 hs0'
        have hone : (if isUnknown (BoxValue.Unknown s0) then 1 else 0)
            = 1 := rfl
        rw [hone] at hc
        have hvals := mark_ok_values hwf hmok
        have hinv1 : Inv b1 := by
          have hwfm := mark_WF (r := i / 9 + 1) (c := i % 9 + 1) (v := kv) hwf
          have hsm := mark_SetsOk hwf hs hmok
          simp only [hmark] at hwfm hsm hvals hc
          exact ⟨hwfm, hsm, by rw [hvals, hcnt]; omega⟩
        refine ih (i + 1) b1 b' hinv1 (by omega) (fun k hk1 hk2 => ?_) hfill
        obtain ⟨sk, hsk⟩ := hstat k (by omega) hk2
        have hij : ¬(k / 9 = i / 9 + 1 - 1 ∧ k % 9 = i % 9 + 1 - 1) := by
          simpa using pos_ne_of_idx_ne hk2 (by omega) (by omega)
        have hcf := mark_frame kv hwf hr1 hr9 hcc1 hcc9 (k / 9) (k % 9) hij
        rw [hmark] at hcf
        rw [hsk] at hcf
        unfold cellEvol at hcf
        rcases hcf with hcf | hcf
        · exact ⟨sk, hcf⟩
        · exact ⟨_, hcf⟩

theorem Inv_new : Inv SudokuBoard.new :=
  ⟨(by decide : WFb SudokuBoard.new = true),
   (by decide : SetsOkB SudokuBoard.new = true), by decide⟩

theorem valAt_new : ∀ i < 9, ∀ j < 9, valAt SudokuBoard.new i j
    = some (.Unknown [1, 2, 3, 4, 5, 6, 7, 8, 9]) := by decide

theorem fill_board_Inv {s : List Char} {b' : SudokuBoard}
    (hlen : (s.filter recognizedChar).length ≤ 81)
    (h : fill_board s = .ok b') : Inv b' := by
  unfold fill_board at h
  refine fillGo_Inv _ 0 _ _ Inv_new (by omega) (fun k _ hk2 => ?_) h
  exact ⟨_, valAt_new (k / 9) (by omega) (k % 9) (by omega)⟩

/-! ### Easy claim support -/

theorem unknownCells_le81 {b : SudokuBoard} (hwf : WF b) :
    unknownCells b ≤ 81 := by
  rw [unknownCells_eq_countP]
  have h1 := List.countP_le_length (p := fun n => isUnknown n.value)
    (l := b.board.flatten)
  rw [wf_flatten_length hwf] at h1
  exact h1

theorem commit_Inv {b : SudokuBoard} {r c : Nat} {v : Int} {s : List Int}
    (hinv : Inv b) (hval : valAt b (r - 1) (c - 1) = some (.Unknown s))
    (hok : (b.mark_as_known r c v).2 = .ok) :
    Inv (b.mark_as_known r c v).1 := by
  obtain ⟨hwf, hs, hcnt⟩ := hinv
  by_cases hrange : r > 9 ∨ c > 9
  · rw [mark_out_of_range v hrange] at hok; simp at hok
  · by_cases hz : r = 0 ∨ c = 0
    · rw [mark_zero v (by tauto) (by tauto) hz] at hok; simp at hok
    · have hc := mark_count (v := v) hwf (by omega) (by omega) (by omega)
        (by omega) hval
      have hone : (if isUnknown (BoxValue.Unknown s) then 1 else 0) = 1 := rfl
      rw [hone] at hc
      have hvals := mark_ok_values hwf hok
      exact ⟨mark_WF hwf, mark_SetsOk hwf hs hok, by rw [hvals, hcnt]; omega⟩

theorem mso_out_of_range {b : SudokuBoard} {r c : Nat} (h : r > 9 ∨ c > 9) :
    b.mark_single_option r c = (b, .fail (.err .InvalidRange)) := by
  unfold SudokuBoard.mark_single_option
  by_cases hr : r > 9
  · rw [if_pos hr]
  · rw [if_neg hr, if_pos (by omega)]

theorem mso_zero {b : SudokuBoard} {r c : Nat}
    (hr : ¬ r > 9) (hc : ¬ c > 9) (h : r = 0 ∨ c = 0) :
    b.mark_single_option r c = (b, .fail .panic) := by
  unfold SudokuBoard.mark_single_option
  rw [if_neg hr, if_neg hc, if_pos h]

theorem forced_Inv2 {b : SudokuBoard} {r c : Nat} (hinv : Inv b)
    (hok : (b.mark_single_option r c).2 = .ok) :
    Inv (b.mark_single_option r c).1 := by
  by_cases hrange : r > 9 ∨ c > 9
  · rw [mso_out_of_range hrange] at hok; simp at hok
  · by_cases hz : r = 0 ∨ c = 0
    · rw [mso_zero (by tauto) (by tauto) hz] at hok; simp at hok
    · obtain ⟨x, hval, heq, hmark⟩ := mso_ok_char hinv.1 (by omega) (by omega)
        (by omega) (by omega) hok
      rw [heq]
      exact commit_Inv hinv hval hmark

theorem count_zero_iff_all_known {b : SudokuBoard} (hwf : WF b) :
    unknownCells b = 0 ↔
      ∀ i < 9, ∀ j < 9, ∃ v, valAt b i j = some (.Known v) := by
  rw [unknownCells_eq_countP]
  constructor
  · intro h0 i hi j hj
    obtain ⟨n, hn, -, -⟩ := wf_node hwf hi hj
    have hmem := wf_valAt_mem hwf ⟨hi, hj⟩ hn
    have hnu := List.countP_eq_zero.mp h0 n hmem
    cases hv : n.value with
    | Known x => exact ⟨x, by simp [valAt, hn, hv]⟩
    | Unknown s =>
      rw [show isUnknown n.value = true by rw [hv]; rfl] at hnu
      simp at hnu
  · intro hall
    refine List.countP_eq_zero.mpr (fun n hn => ?_)
    obtain ⟨k, hk⟩ := List.mem_iff_getElem?.mp hn
    have hk81 : k < 81 := by
      have := (List.getElem?_eq_some_iff.mp hk).1
      rw [wf_flatten_length hwf] at this
      exact this
    rw [wf_flatten_getElem hwf k] at hk
    obtain ⟨v, hv⟩ := hall (k / 9) (by omega) (k % 9) (by omega)
    obtain ⟨n', hn', hv'⟩ := valAt_some hv
    rw [hk] at hn'
    have hnn : n' = n := (Option.some.inj hn').symm
    subst hnn
    rw [hv']
    simp [isUnknown]

/-! ### The claims -/

set_option maxRecDepth 100000

/-- C1: building a Board via `fill` from the 81-character scenario-B input
and running the solver succeeds, and rendering the solved board yields
exactly the expected 81-character solution. -/
theorem claim1_end_to_end :
    solveRender scenarioB_input = some scenarioB_solution := by rfl

/-- C2 counterexample: an input whose only givens are two fives in the
same row fills successfully — both cells end up `Known 5` — instead of
failing with `Unsolvable` as the claim asserts. -/
theorem claim2_counterexample :
    (∃ b, fill_board dupRowInput = .ok b ∧
      valAt b 0 0 = some (.Known 5) ∧ valAt b 0 1 = some (.Known 5)) ∧
    fill_board dupRowInput ≠ .fail (.err .NotSolvable) := by
  refine ⟨⟨_, rfl, rfl, rfl⟩, by decide⟩

/-- C2 (amended): for every input consuming at most 81 grid positions,
`fill_board` never crashes: it either returns a filled board or fails with
`NotSolvable`; a duplicated digit in a row does not by itself cause
failure. -/
theorem claim2_amended (s : List Char)
    (hlen : (s.filter recognizedChar).length ≤ 81) :
    (∃ b, fill_board s = .ok b) ∨
      fill_board s = .fail (.err .NotSolvable) := by
  unfold fill_board
  exact fillGo_kinds _ 0 _ Inv_new.1 (by omega)

theorem claim2_witness :
    (dupRowInput.filter recognizedChar).length ≤ 81 ∧
      ((∃ b, fill_board dupRowInput = .ok b) ∨
        fill_board dupRowInput = .fail (.err .NotSolvable)) :=
  ⟨by decide, claim2_amended dupRowInput (by decide)⟩

/-- C4 counterexample: `commit` with row 0 (outside 1..=9) does not return
the range error — it is a Rust panic (`usize` underflow on `row - 1`),
modelled as the `panic` outcome. -/
theorem claim4_counterexample :
    SudokuBoard.new.mark_as_known 0 1 5 = (SudokuBoard.new, .fail .panic) ∧
      SudokuResult.fail .panic ≠ .fail (.err .InvalidRange) := by
  refine ⟨by decide, by decide⟩

/-- C4 (amended): `commit` returns the recoverable `InvalidRange` error
exactly for coordinates above 9; a coordinate of 0 — the remaining way to
be outside 1..=9 — crashes instead of returning an error. -/
theorem claim4_amended (b : SudokuBoard) (r c : Nat) (v : Int) :
    ((r > 9 ∨ c > 9) →
      b.mark_as_known r c v = (b, .fail (.err .InvalidRange))) ∧
    (¬ r > 9 → ¬ c > 9 → (r = 0 ∨ c = 0) →
      b.mark_as_known r c v = (b, .fail .panic)) :=
  ⟨mark_out_of_range v, mark_zero v⟩

theorem claim4_witness :
    SudokuBoard.new.mark_as_known 10 1 5
        = (SudokuBoard.new, .fail (.err .InvalidRange)) ∧
      SudokuBoard.new.mark_as_known 1 0 5 = (SudokuBoard.new, .fail .panic) :=
  ⟨(claim4_amended SudokuBoard.new 10 1 5).1 (by decide),
   (claim4_amended SudokuBoard.new 1 0 5).2 (by decide) (by decide)
     (by decide)⟩

/-- C8: a board with `unknown_values = 0` solves immediately: the result is
success and the board is returned unchanged. -/
theorem claim8_prefilled (b : SudokuBoard) (h : b.unknown_values = 0) :
    b.solve = (b, .ok) := by
  unfold SudokuBoard.solve
  rw [solveFuel_succ]
  exact solveStep_done _ _ (by omega)

theorem claim8_witness : fullBoard.solve = (fullBoard, .ok) :=
  claim8_prefilled fullBoard (by decide)

/-- C9: the solver terminates on every well-formed board: the fuel bound
82 (one more than the 81-bounded number of unknown cells, which strictly
decreases at each loop iteration and each recursive branch attempt) is
never exhausted. -/
theorem claim9_termination (b : SudokuBoard) (hwf : WF b) :
    (b.solve).2 ≠ .fail .fuelOut := by
  unfold SudokuBoard.solve
  refine solveFuel_no_fuelOut 82 b hwf ?_
  have := unknownCells_le81 hwf
  omega

theorem claim9_witness : (fullBoard.solve).2 ≠ .fail .fuelOut :=
  claim9_termination fullBoard (by decide : WFb fullBoard = true)

/-- C10 counterexample: after filling the single-character input "5", the
uncovered cell `(1,2)` is in candidate state but holds only eight
candidates — the propagation of the committed 5 removed one — not all
nine as the claim asserts. -/
theorem claim10_counterexample :
    ∃ b, fill_board ['5'] = .ok b ∧
      valAt b 0 1 = some (.Unknown [1, 2, 3, 4, 6, 7, 8, 9]) ∧
      valAt b 0 1 ≠ some (.Unknown [1, 2, 3, 4, 5, 6, 7, 8, 9]) := by
  refine ⟨_, rfl, rfl, by decide⟩

/-- C10 (amended): `fill_board` does not validate the grid size: an
input covering fewer than 81 positions still succeeds when its digit
commits succeed, and every grid position beyond the consumed prefix is
left in candidate state (its candidate set possibly reduced by
propagation from the committed digits). -/
theorem claim10_amended (s : List Char) (b : SudokuBoard)
    (hlen : (s.filter recognizedChar).length < 81)
    (hfill : fill_board s = .ok b) :
    ∀ k, (s.filter recognizedChar).length ≤ k → k < 81 →
      ∃ s', valAt b (k / 9) (k % 9) = some (.Unknown s') := by
  intro k hk1 hk2
  unfold fill_board at hfill
  obtain ⟨-, hA, -⟩ := fillGo_chars (s.filter recognizedChar) 0
    SudokuBoard.new b Inv_new.1 (by omega) hfill
  have := hA k hk2 (by omega)
  rw [valAt_new (k / 9) (by omega) (k % 9) (by omega)] at this
  exact this

theorem claim10_witness :
    ((['5'] : List Char).filter recognizedChar).length < 81 ∧
      ∃ b, fill_board ['5'] = .ok b ∧
        ∃ s', valAt b (80 / 9) (80 % 9) = some (.Unknown s') := by
  refine ⟨by decide, _, rfl, ?_⟩
  exact claim10_amended ['5'] _ (by decide) rfl 80 (by decide) (by decide)

/-- C5 counterexample: `commit` decrements `unknown_values` even when it
overwrites an already-known cell.  After two successful commits to cell
(1,1) the counter reads 79 while 80 cells are still in candidate
state, so the claimed equality fails in a state reached through public
operations alone. -/
theorem claim5_counterexample :
    (SudokuBoard.new.mark_as_known 1 1 5).2 = .ok ∧
    ((SudokuBoard.new.mark_as_known 1 1 5).1.mark_as_known 1 1 5).2 = .ok ∧
    ((SudokuBoard.new.mark_as_known 1 1 5).1.mark_as_known 1 1 5).1.unknown_values
      = 79 ∧
    unknownCells
      ((SudokuBoard.new.mark_as_known 1 1 5).1.mark_as_known 1 1 5).1 = 80 := by
  exact ⟨by decide, by decide, by decide, by decide⟩

/-- C5 (amended): in every board state reachable through `new`, `fill`
(consuming at most 81 positions), commits applied to cells still in
candidate state, forced commits, and successful solves, `unknown_count`
equals the number of candidate cells, it is never negative, it is 0
exactly when every cell is known, and every further successful commit
decrements it by exactly 1. -/
theorem claim5_amended (b : SudokuBoard) (hreach : Reachable b) :
    b.unknown_values = (unknownCells b : Int) ∧
    0 ≤ b.unknown_values ∧
    (b.unknown_values = 0 ↔
      ∀ i < 9, ∀ j < 9, ∃ v, valAt b i j = some (.Known v)) ∧
    (∀ r c v, (b.mark_as_known r c v).2 = .ok →
      (b.mark_as_known r c v).1.unknown_values = b.unknown_values - 1) := by
  have hinv : Inv b := by
    induction hreach with
    | new => exact Inv_new
    | fill s b hlen hfb => exact fill_board_Inv hlen hfb
    | commit b r c v hre hval hok ih => exact commit_Inv ih hval hok
    | commit_forced b r c hre hok ih => exact forced_Inv2 ih hok
    | solve b fuel hre hok ih => exact solveFuel_ok_Inv fuel b ih hok
  obtain ⟨hwf, hs, hcnt⟩ := hinv
  refine ⟨hcnt, by omega, ?_, fun r c v hok => mark_ok_values hwf hok⟩
  rw [hcnt]
  constructor
  · intro h0
    exact (count_zero_iff_all_known hwf).mp (by exact_mod_cast h0)
  · intro hall
    have := (count_zero_iff_all_known hwf).mpr hall
    omega

theorem claim5_witness :
    SudokuBoard.new.unknown_values = (unknownCells SudokuBoard.new : Int) ∧
    0 ≤ SudokuBoard.new.unknown_values ∧
    (SudokuBoard.new.unknown_values = 0 ↔
      ∀ i < 9, ∀ j < 9, ∃ v, valAt SudokuBoard.new i j
        = some (.Known v)) ∧
    (∀ r c v, (SudokuBoard.new.mark_as_known r c v).2 = .ok →
      (SudokuBoard.new.mark_as_known r c v).1.unknown_values
        = SudokuBoard.new.unknown_values - 1) :=
  claim5_amended SudokuBoard.new Reachable.new

/-- C6 counterexample: '0' is a recognized placeholder on input, but the
renderer prints candidates as '-', so the round trip changes every '0'
into '-'. -/
theorem claim6_counterexample :
    ∃ b, fill_board zerosInput = .ok b ∧ b.print_board ≠ zerosInput := by
  exact ⟨_, rfl, by decide⟩

theorem char_legal_digit :
    ∀ c ∈ legalChars, c ≠ '-' →
      ∃ kv, i32_from_char c = some kv ∧ char_from32 kv = some c := by decide

theorem legal_recognized : ∀ c ∈ legalChars, recognizedChar c = true := by
  decide

/-- C6 (amended): the fill/render round trip is the identity on
81-character inputs over the renderable alphabet '1'..'9' and '-'
(the placeholder '0' renders back as '-', so it is excluded): whenever
`fill` succeeds on such an input, rendering the board returns it
exactly. -/
theorem claim6_amended (s : List Char) (b : SudokuBoard)
    (hlen : s.length = 81) (hleg : ∀ c ∈ s, c ∈ legalChars)
    (hfill : fill_board s = .ok b) :
    b.print_board = s := by
  have hfilter : s.filter recognizedChar = s :=
    List.filter_eq_self.mpr (fun c hc => legal_recognized c (hleg c hc))
  unfold fill_board at hfill
  rw [hfilter] at hfill
  obtain ⟨hwf, hA, hB⟩ := fillGo_chars s 0 SudokuBoard.new b Inv_new.1
    (by omega) hfill
  refine List.ext_getElem? (fun k => ?_)
  unfold SudokuBoard.print_board
  rw [List.getElem?_map]
  by_cases hk : k < 81
  · rw [wf_flatten_getElem hwf k]
    obtain ⟨c, hc⟩ : ∃ c, s[k]? = some c :=
      ⟨_, List.getElem?_eq_getElem (by omega)⟩
    obtain ⟨hBk1, hBk2⟩ := hB k c hc
    have hzk : 0 + k = k := by omega
    rw [hzk] at hBk1 hBk2
    have hcleg := hleg c (List.getElem?_mem hc)
    by_cases hdash : c = '-'
    · subst hdash
      have hrend := hBk2 rfl
      rw [valAt_new (k / 9) (by omega) (k % 9) (by omega)] at hrend
      obtain ⟨s', hs'⟩ := hrend
      obtain ⟨n, hn, hnv⟩ := valAt_some hs'
      rw [hn, hc]
      simp [renderNode, hnv]
    · obtain ⟨kv, hkv, hback⟩ := char_legal_digit c hcleg hdash
      have hknown := hBk1 kv hkv
      obtain ⟨n, hn, hnv⟩ := valAt_some hknown
      rw [hn, hc]
      simp [renderNode, hnv, hback]
  · have h1 : b.board.flatten[k]? = none := by
      rw [List.getElem?_eq_none]
      rw [wf_flatten_length hwf]
      omega
    have h2 : s[k]? = none := by
      rw [List.getElem?_eq_none]
      omega
    rw [h1, h2]
    rfl

theorem claim6_witness :
    ∃ b, fill_board rtInput = .ok b ∧ b.print_board = rtInput :=
  ⟨_, rfl, claim6_amended rtInput _ (by decide) (by decide) rfl⟩

/-! ### Duplicate-freeness of units (claim C3) -/

theorem mem_allPos {p : Nat × Nat} (h : p ∈ allPos) :
    1 ≤ p.1 ∧ p.1 ≤ 9 ∧ 1 ≤ p.2 ∧ p.2 ≤ 9 := by
  unfold allPos at h
  rw [List.mem_flatten] at h
  obtain ⟨l, hl, hp⟩ := h
  rw [List.mem_map] at hl
  obtain ⟨r0, hr0, hl'⟩ := hl
  subst hl'
  rw [List.mem_map] at hp
  obtain ⟨c0, hc0, hp'⟩ := hp
  subst hp'
  rw [List.mem_range] at hr0 hc0
  simp only
  omega

theorem allPos_intro {p : Nat × Nat} (h1 : 1 ≤ p.1) (h9 : p.1 ≤ 9)
    (h2 : 1 ≤ p.2) (h29 : p.2 ≤ 9) : p ∈ allPos := by
  unfold allPos
  rw [List.mem_flatten]
  refine ⟨(List.range 9).map (fun c => (p.1, c + 1)), ?_, ?_⟩
  · rw [List.mem_map]
    refine ⟨p.1 - 1, List.mem_range.mpr (by omega), ?_⟩
    simp only [show p.1 - 1 + 1 = p.1 from by omega]
  · rw [List.mem_map]
    refine ⟨p.2 - 1, List.mem_range.mpr (by omega), ?_⟩
    simp only [show p.2 - 1 + 1 = p.2 from by omega]

theorem sameUnit_symm {p q : Nat × Nat} (h : sameUnit p q = true) :
    sameUnit q p = true := by
  unfold sameUnit squareOf at *
  simp only [Bool.or_eq_true, beq_iff_eq] at *
  omega

theorem noDupB_iff (b : SudokuBoard) :
    noDupB b = true ↔ ∀ p ∈ allPos, ∀ q ∈ allPos, p ≠ q →
      sameUnit p q = true → ∀ v w, knownAt b p = some v →
      knownAt b q = some w → v ≠ w := by
  unfold noDupB
  simp only [List.all_eq_true]
  constructor
  · intro h p hp q hq hpq hsu v w hkp hkq hvw
    have h2 := h p hp q hq
    simp only [hkp, hkq] at h2
    have e1 : (p == q) = false := beq_eq_false_iff_ne.mpr hpq
    have e2 : (!(sameUnit p q)) = false := by rw [hsu]; rfl
    have e3 : (!(v == w)) = false := by rw [hvw]; simp
    rw [e1, e2, e3] at h2
    simp at h2
  · intro h p hp q hq
    by_cases hpq : p = q
    · simp [hpq]
    · by_cases hsu : sameUnit p q = true
      · cases hkp : knownAt b p with
        | none => simp [hkp]
        | some v =>
          cases hkq : knownAt b q with
          | none => simp [hkp, hkq]
          | some w =>
            have hne := h p hp q hq hpq hsu v w hkp hkq
            simp [hkp, hkq, hne]
      · have hsu' : sameUnit p q = false := by
          revert hsu
          cases sameUnit p q <;> simp
        simp [hsu']

theorem propagatedB_mp {b : SudokuBoard} (h : propagatedB b = true) :
    ∀ p ∈ allPos, ∀ q ∈ allPos, p ≠ q → sameUnit p q = true →
      ∀ s w, candAt b p = some s → knownAt b q = some w → ¬ w ∈ s := by
  unfold propagatedB at h
  simp only [List.all_eq_true] at h
  intro p hp q hq hpq hsu s w hcp hkq hmem
  have h2 := h p hp q hq
  simp only [hcp, hkq] at h2
  have e1 : (p == q) = false := beq_eq_false_iff_ne.mpr hpq
  have e2 : (!(sameUnit p q)) = false := by rw [hsu]; rfl
  have e3 : (!(s.contains w)) = false := by
    have : s.contains w = true := List.elem_iff.mpr hmem
    rw [this]
    rfl
  rw [e1, e2, e3] at h2
  simp at h2

theorem knownAt_known {b : SudokuBoard} {p : Nat × Nat} {y : Int}
    (h : valAt b (p.1 - 1) (p.2 - 1) = some (.Known y)) :
    knownAt b p = some y := by
  unfold knownAt
  rw [h]

theorem knownAt_unknown {b : SudokuBoard} {p : Nat × Nat} {s : List Int}
    (h : valAt b (p.1 - 1) (p.2 - 1) = some (.Unknown s)) :
    knownAt b p = none := by
  unfold knownAt
  rw [h]

theorem knownAt_none {b : SudokuBoard} {p : Nat × Nat}
    (h : valAt b (p.1 - 1) (p.2 - 1) = none) : knownAt b p = none := by
  unfold knownAt
  rw [h]

/-- Known cells other than the commit target trace back unchanged. -/
theorem mark_known_back {b : SudokuBoard} {r c : Nat} {v : Int}
    (hwf : WF b) (hr1 : 1 ≤ r) (hr9 : r ≤ 9) (hc1 : 1 ≤ c) (hc9 : c ≤ 9)
    {p : Nat × Nat} (hp1 : 1 ≤ p.1) (hp9 : p.1 ≤ 9) (hp2 : 1 ≤ p.2)
    (hp29 : p.2 ≤ 9) (hne : p ≠ (r, c)) {x : Int}
    (h : knownAt (b.mark_as_known r c v).1 p = some x) :
    knownAt b p = some x := by
  have hij : ¬(p.1 - 1 = r - 1 ∧ p.2 - 1 = c - 1) := by
    rintro ⟨ha, hb2⟩
    exact hne (Prod.ext (by omega) (by omega))
  have hev := mark_frame v hwf hr1 hr9 hc1 hc9 (p.1 - 1) (p.2 - 1) hij
  unfold cellEvol at hev
  cases hvb : valAt b (p.1 - 1) (p.2 - 1) with
  | none =>
    rw [hvb] at hev
    rw [knownAt_none hev] at h
    cases h
  | some w =>
    cases w with
    | Known y =>
      rw [hvb] at hev
      rw [knownAt_known hev] at h
      rw [knownAt_known hvb]
      exact h
    | Unknown s =>
      rw [hvb] at hev
      rcases hev with hev | hev <;> rw [knownAt_unknown hev] at h <;> cases h

/-- C3 counterexample: after a successful commit of 5 at (1,1) the board
has no duplicate known digits, yet a further successful commit of 5 at
(1,2) — `commit` never checks the candidates of its target — leaves two
known 5s in row 1. -/
theorem claim3_counterexample :
    (SudokuBoard.new.mark_as_known 1 1 5).2 = .ok ∧
    noDupB (SudokuBoard.new.mark_as_known 1 1 5).1 = true ∧
    ((SudokuBoard.new.mark_as_known 1 1 5).1.mark_as_known 1 2 5).2 = .ok ∧
    noDupB ((SudokuBoard.new.mark_as_known 1 1 5).1.mark_as_known 1 2 5).1
      = false := by
  exact ⟨by decide, by decide, by decide, by decide⟩

/-- C3 (amended): a successful commit keeps the units free of duplicate
known digits provided the committed value is among the target cell's
current candidates and the board is propagated (each candidate set already
excludes its peers' known values) — the state in which the solver itself
always calls `commit`. -/
theorem claim3_amended {b : SudokuBoard} {r c : Nat} {v : Int}
    {s : List Int} (hwf : WF b) (hprop : propagatedB b = true)
    (hnd : noDupB b = true)
    (hcell : valAt b (r - 1) (c - 1) = some (.Unknown s)) (hv : v ∈ s)
    (hok : (b.mark_as_known r c v).2 = .ok) :
    noDupB (b.mark_as_known r c v).1 = true := by
  by_cases hrange : r > 9 ∨ c > 9
  · rw [mark_out_of_range v hrange] at hok; simp at hok
  by_cases hz : r = 0 ∨ c = 0
  · rw [mark_zero v (by tauto) (by tauto) hz] at hok; simp at hok
  have hr1 : 1 ≤ r := by omega
  have hr9 : r ≤ 9 := by omega
  have hc1 : 1 ≤ c := by omega
  have hc9 : c ≤ 9 := by omega
  have htar : knownAt (b.mark_as_known r c v).1 (r, c) = some v :=
    knownAt_known (by simpa using mark_target v hwf hr1 hr9 hc1 hc9)
  have hcand : candAt b (r, c) = some s := by
    unfold candAt
    rw [show ((r, c) : Nat × Nat).1 - 1 = r - 1 from rfl,
      show ((r, c) : Nat × Nat).2 - 1 = c - 1 from rfl, hcell]
  have hrc : (r, c) ∈ allPos := allPos_intro hr1 hr9 hc1 hc9
  rw [noDupB_iff]
  intro p hp q hq hpq hsu v1 w1 hk1 hk2
  obtain ⟨hpa, hpb, hpc, hpd⟩ := mem_allPos hp
  obtain ⟨hqa, hqb, hqc, hqd⟩ := mem_allPos hq
  by_cases hpt : p = (r, c)
  · subst hpt
    have hv1 : v1 = v := by
      rw [htar] at hk1
      exact (Option.some.inj hk1).symm
    subst hv1
    have hqt : q ≠ (r, c) := fun hcon => hpq (hcon ▸ rfl)
    have hkqb := mark_known_back hwf hr1 hr9 hc1 hc9 hqa hqb hqc hqd hqt hk2
    intro hvw
    exact propagatedB_mp hprop (r, c) hrc q hq hpq hsu s w1 hcand hkqb
      (hvw ▸ hv)
  · have hkpb := mark_known_back hwf hr1 hr9 hc1 hc9 hpa hpb hpc hpd hpt hk1
    by_cases hqt : q = (r, c)
    · have hw1 : w1 = v := by
        rw [hqt, htar] at hk2
        exact (Option.some.inj hk2).symm
      have hne1 : (r, c) ≠ p := fun hcon => hpt hcon.symm
      have hsu1 : sameUnit (r, c) p = true := sameUnit_symm (hqt ▸ hsu)
      intro hvw
      refine propagatedB_mp hprop (r, c) hrc p hp hne1 hsu1 s v1 hcand
        hkpb ?_
      rw [hvw, hw1]
      exact hv
    · have hkqb := mark_known_back hwf hr1 hr9 hc1 hc9 hqa hqb hqc hqd
        hqt hk2
      exact (noDupB_iff b).mp hnd p hp q hq hpq hsu v1 w1 hkpb hkqb

theorem claim3_witness :
    WF (SudokuBoard.new.mark_as_known 1 1 5).1 ∧
    propagatedB (SudokuBoard.new.mark_as_known 1 1 5).1 = true ∧
    noDupB (SudokuBoard.new.mark_as_known 1 1 5).1 = true ∧
    valAt (SudokuBoard.new.mark_as_known 1 1 5).1 (1 - 1) (2 - 1)
      = some (BoxValue.Unknown [1, 2, 3, 4, 6, 7, 8, 9]) ∧
    (3 : Int) ∈ ([1, 2, 3, 4, 6, 7, 8, 9] : List Int) ∧
    ((SudokuBoard.new.mark_as_known 1 1 5).1.mark_as_known 1 2 3).2 = .ok ∧
    noDupB ((SudokuBoard.new.mark_as_known 1 1 5).1.mark_as_known 1 2 3).1
      = true :=
  ⟨(by decide : WFb (SudokuBoard.new.mark_as_known 1 1 5).1 = true),
   by decide, by decide, by decide, by decide, by decide,
   claim3_amended (r := 1) (c := 2) (v := 3)
     (s := [1, 2, 3, 4, 6, 7, 8, 9])
     (by decide : WFb (SudokuBoard.new.mark_as_known 1 1 5).1 = true)
     (by decide) (by decide) (by decide) (by decide) (by decide)⟩

/-! ### The branching search (claim C7) -/

theorem tryAlts_cons_ok {f : SudokuBoard → SudokuBoard × SudokuResult}
    {b : SudokuBoard} {r c : Nat} {v : Int} (rest : List Int)
    (hok : (f ((b.mark_as_known r c v).1)).2 = .ok) :
    tryAlts f b r c (v :: rest)
      = (⟨(f ((b.mark_as_known r c v).1)).1.board,
          (f ((b.mark_as_known r c v).1)).1.unknown_values⟩, .ok) := by
  unfold tryAlts
  rcases hres : f ((b.mark_as_known r c v).1) with ⟨alt1, res⟩
  rw [hres] at hok
  replace hok : res = .ok := hok
  subst hok
  simp only [hres]

theorem tryAlts_cons_err {f : SudokuBoard → SudokuBoard × SudokuResult}
    {b : SudokuBoard} {r c : Nat} {v : Int} (rest : List Int)
    {e : SudokuError}
    (herr : (f ((b.mark_as_known r c v).1)).2 = .fail (.err e)) :
    tryAlts f b r c (v :: rest) = tryAlts f b r c rest := by
  unfold tryAlts
  rcases hres : f ((b.mark_as_known r c v).1) with ⟨alt1, res⟩
  rw [hres] at herr
  replace herr : res = .fail (.err e) := herr
  subst herr
  simp only [hres]
  cases rest <;> rfl

/-- C7: at a branch point — consistent board with enough fuel, no forced
move, minimum positive candidate-set size `m`, branch cell `nv` carrying
candidate set `alt_set` — the solver (1) runs exactly the candidate loop
over `alt_set`; (2) that list is in ascending numeric order (`BTreeSet`
iteration order); (3) the speculative commit on each cloned board
succeeds; (4) at the first value whose recursive solve of the clone
succeeds, the clone's full grid and `unknown_values` counter are adopted
as the board's state and the loop returns success without trying the
remaining values; (5) a value whose recursive solve returns an error is
discarded, and the loop moves on to the next value; (6) each recursive
solve either succeeds or returns an error (never a panic or fuel
exhaustion), so cases (4) and (5) are exhaustive. -/
theorem claim7_branching {b : SudokuBoard} {fuel m : Nat} {nv : Node}
    {alt_set : List Int} (hinv : Inv b) (hfuel : unknownCells b ≤ fuel)
    (hpos : b.unknown_values > 0) (hfs : findSingle b = none)
    (hmin : (altLens b).min? = some m) (hfa : findAlt b m = some nv)
    (hv : nv.value = BoxValue.Unknown alt_set) :
    solveFuel (fuel + 1) b
        = tryAlts (solveFuel fuel) b nv.row nv.col alt_set ∧
    ascB alt_set = true ∧
    (∀ v : Int, (b.mark_as_known nv.row nv.col v).2 = .ok) ∧
    (∀ (v : Int) (rest : List Int),
      (solveFuel fuel ((b.mark_as_known nv.row nv.col v).1)).2 = .ok →
      tryAlts (solveFuel fuel) b nv.row nv.col (v :: rest)
        = (⟨(solveFuel fuel ((b.mark_as_known nv.row nv.col v).1)).1.board,
            (solveFuel fuel
              ((b.mark_as_known nv.row nv.col v).1)).1.unknown_values⟩,
           .ok)) ∧
    (∀ (v : Int) (rest : List Int) (e : SudokuError),
      (solveFuel fuel ((b.mark_as_known nv.row nv.col v).1)).2
          = .fail (.err e) →
      tryAlts (solveFuel fuel) b nv.row nv.col (v :: rest)
        = tryAlts (solveFuel fuel) b nv.row nv.col rest) ∧
    (∀ v : Int,
      (solveFuel fuel ((b.mark_as_known nv.row nv.col v).1)).2 = .ok ∨
      ∃ e, (solveFuel fuel ((b.mark_as_known nv.row nv.col v).1)).2
          = .fail (.err e)) := by
  obtain ⟨hr1, hr9, hc1, hc9, hidx, s, hvs, hlen⟩ := findAlt_spec hinv.1 hfa
  have hset : valAt b (nv.row - 1) (nv.col - 1)
      = some (.Unknown alt_set) := by
    simp [valAt, hidx, hv]
  have hasc : ascB alt_set = true := by
    have hok := SetsOk_at hinv.2.1 hset
    unfold cellOkB at hok
    simp only [Bool.and_eq_true] at hok
    exact hok.1
  refine ⟨?_, hasc, ?_, ?_, ?_, ?_⟩
  · rw [solveFuel_succ]
    exact solveStep_branch _ hpos hfs hmin hfa hv
  · intro v
    exact (branch_Inv hinv hfs hr1 hr9 hc1 hc9 hset v).1
  · intro v rest hvok
    exact tryAlts_cons_ok rest hvok
  · intro v rest e herr
    exact tryAlts_cons_err rest herr
  · intro v
    obtain ⟨-, hinv1, hdec⟩ := branch_Inv hinv hfs hr1 hr9 hc1 hc9 hset v
    have hcv := hinv.2.2
    exact solveFuel_kinds fuel _ hinv1 (by omega)

theorem claim7_witness :
    (Inv SudokuBoard.new ∧ unknownCells SudokuBoard.new ≤ 81 ∧
     SudokuBoard.new.unknown_values > 0 ∧
     findSingle SudokuBoard.new = none ∧
     (altLens SudokuBoard.new).min? = some 9 ∧
     findAlt SudokuBoard.new 9
       = some ⟨1, 1, BoxValue.Unknown [1, 2, 3, 4, 5, 6, 7, 8, 9]⟩) ∧
    solveFuel 82 SudokuBoard.new
      = tryAlts (solveFuel 81) SudokuBoard.new 1 1
          [1, 2, 3, 4, 5, 6, 7, 8, 9] ∧
    ascB [1, 2, 3, 4, 5, 6, 7, 8, 9] = true := by
  have hinv : Inv SudokuBoard.new :=
    ⟨(by decide : WFb SudokuBoard.new = true),
     (by decide : SetsOkB SudokuBoard.new = true), by decide⟩
  have h := @claim7_branching SudokuBoard.new 81 9
      ⟨1, 1, BoxValue.Unknown [1, 2, 3, 4, 5, 6, 7, 8, 9]⟩
      [1, 2, 3, 4, 5, 6, 7, 8, 9] hinv (by decide) (by decide) (by decide)
      (by decide) (by decide) rfl
  exact ⟨⟨hinv, by decide, by decide, by decide, by decide, by decide⟩,
    h.1, h.2.1⟩

end Sudoku
